import Mathlib

/-!
Verification of the image-classifier upload pipeline.

The development shallowly embeds the two server routes that form the core of
the repository: the upload handler (ZIP staging, extraction via the entry
filter and collision resolution, bounds checks, deduplication and URL
mapping) and the image-serving handler (path joining, canonicalization, the
storage-root containment check and MIME selection).  Paths are modelled as
POSIX strings, the filesystem as an association list of file paths to byte
lists together with a list of directories, and the byte streams of archive
entries as byte lists.  All string operations are implemented structurally
over the underlying character lists so that every definition evaluates by
kernel reduction.
-/

/-- Lexicographic comparison of character lists, mirroring the default
string comparison used by the JavaScript sort call in the upload handler. -/
def lexLe : List Char → List Char → Bool
  | [], _ => true
  | _ :: _, [] => false
  | a :: as, b :: bs => if a < b then true else if b < a then false else lexLe as bs

/-- Lexicographic order on strings, the comparator of the handler's sort. -/
def strLe (a b : String) : Prop := lexLe a.data b.data = true

instance : DecidableRel strLe := fun a b => by
  unfold strLe; infer_instance

/-- Prefix test on strings (String.prototype.startsWith). -/
def strStartsWith (s t : String) : Bool := t.data.isPrefixOf s.data

/-- Suffix test on strings (String.prototype.endsWith). -/
def strEndsWith (s t : String) : Bool := t.data.isSuffixOf s.data

/-- Test whether a name ends in the path-separator marker, as the upload
handler's directory-entry regex does. -/
def endsSlash (s : String) : Bool := s.data.getLast? == some '/'

/-- Lower-casing of a string (String.prototype.toLowerCase), character-wise. -/
def strToLower (s : String) : String := String.mk (s.data.map Char.toLower)

/-- Replace every backslash by a forward slash, as the upload handler does
when turning a relative file path into a URL path. -/
def replaceBsl (s : String) : String :=
  String.mk (s.data.map (fun c => if c = '\\' then '/' else c))

/-- Split a character list at slashes (String.prototype.split with " / ",
also the segment decomposition performed by path normalization). -/
def splitSlash : List Char → List (List Char)
  | [] => [[]]
  | c :: cs =>
    match splitSlash cs with
    | [] => [[]]
    | g :: gs => if c = '/' then [] :: g :: gs else (c :: g) :: gs

/-- Split a string into its slash-separated segments. -/
def splitSegs (s : String) : List String := (splitSlash s.data).map String.mk

/-- Join character-list segments with slashes, the inverse of splitSlash. -/
def joinSlash : List (List Char) → List Char
  | [] => []
  | [g] => g
  | g :: gs => g ++ '/' :: joinSlash gs

/-- Remove trailing slashes, the first step of the basename computation. -/
def dropTrailSlashes (l : List Char) : List Char :=
  (l.reverse.dropWhile (fun c => c == '/')).reverse

/-- Last path segment of a name (path.basename on POSIX). -/
def basename (p : String) : String :=
  String.mk ((splitSlash (dropTrailSlashes p.data)).getLastD [])

/-- Extension of a path (path.extname on POSIX): the last dot of the final
segment up to the end, empty when there is no dot or the dot is the first
character of the segment. -/
def extname (p : String) : String :=
  let b := (basename p).data
  let pre := b.reverse.takeWhile (fun c => c != '.')
  if pre.length = b.length then ""
  else if pre.length + 1 = b.length then ""
  else String.mk ('.' :: pre.reverse)

/-- Strip the extension from a leaf name, as path.basename(fileName, ext)
does in the collision loop of the extractor. -/
def stripExt (fileName : String) : String :=
  String.mk (fileName.data.take (fileName.data.length - (extname fileName).data.length))

/-- Decimal digits of a natural number, with structural fuel so that the
definition evaluates by kernel reduction.  The fuel decStr passes always
suffices. -/
def decDigitsAux : Nat → Nat → List Char
  | 0, _ => []
  | fuel + 1, n =>
    if n < 10 then [Nat.digitChar n]
    else decDigitsAux fuel (n / 10) ++ [Nat.digitChar (n % 10)]

/-- Decimal string of a natural number, the embedding of the JavaScript
number-to-string conversion used in template literals. -/
def decStr (n : Nat) : String := String.mk (decDigitsAux (n + 1) n)

/-- Numeric value of a decimal digit character. -/
def digitVal (c : Char) : Nat := c.toNat - 48

/-- Value of a decimal digit string, used to invert decStr. -/
def evalDigits (l : List Char) : Nat := l.foldl (fun acc c => acc * 10 + digitVal c) 0

/-- One archive entry: its relative name inside the container (a trailing
slash marks a directory entry, exactly what the handler's regex detects) and
its byte stream. -/
structure ZipEntry where
  fileName : String
  content : List Nat
deriving DecidableEq

/-- The filesystem: files as an association list from absolute path to
bytes (later writes shadow earlier ones), and the set of directories. -/
structure FS where
  files : List (String × List Nat)
  dirs : List String
deriving DecidableEq

/-- Existence test for a file (fs.existsSync). -/
def FS.fileExists (fs : FS) (p : String) : Bool := (fs.files.lookup p).isSome

/-- Read a file's bytes (fs.readFile). -/
def FS.readFile (fs : FS) (p : String) : Option (List Nat) := fs.files.lookup p

/-- Write a file (fs.writeFile / a completed write stream). -/
def FS.writeFile (fs : FS) (p : String) (b : List Nat) : FS :=
  { fs with files := (p, b) :: fs.files }

/-- Create a directory (fs.mkdir / fs.ensureDirSync). -/
def FS.mkdir (fs : FS) (p : String) : FS := { fs with dirs := p :: fs.dirs }

/-- Recursive removal (fs.remove): deletes the named path and everything
below it, for files and directories alike. -/
def FS.removeAll (fs : FS) (q : String) : FS :=
  { files := fs.files.filter (fun kv => !(kv.1 == q || strStartsWith kv.1 (q ++ "/"))),
    dirs := fs.dirs.filter (fun d => !(d == q || strStartsWith d (q ++ "/"))) }

/-- The process working directory of the deployed server. -/
def CWD : String := "/app"

/-- Storage root for extracted images (path.join(process.cwd(), uploads)). -/
def UPLOAD_DIR : String := CWD ++ "/uploads"

/-- Staging directory for uploaded archives (path.join(process.cwd(), temp)). -/
def TEMP_DIR : String := CWD ++ "/temp"

/-- The image-extension allow-list of the upload route. -/
def IMAGE_EXTENSIONS : List String := [".jpg", ".jpeg", ".png", ".gif", ".webp", ".bmp"]

/-- The entry filter's extension test: isImageFile from the upload route. -/
def isImageFile (filename : String) : Bool :=
  IMAGE_EXTENSIONS.contains (strToLower (extname filename))

/-- The keep decision of the entry filter on a (not previously seen) entry
name: not a directory entry, an allow-listed image extension, and not a
resource-fork shadow file. -/
def keepName (name : String) : Bool :=
  (!endsSlash name) && isImageFile name && (!strStartsWith (basename name) "._")

/-- Candidate on-disk location number k for a leaf name: k = 0 is the plain
join of the destination directory and the leaf, k > 0 inserts an _k suffix
before the extension, exactly as the collision loop recomputes it. -/
def candidateAt (extractTo fileName : String) : Nat → String
  | 0 => extractTo ++ "/" ++ fileName
  | Nat.succ k =>
    extractTo ++ "/" ++ stripExt fileName ++ "_" ++ decStr (k + 1) ++ extname fileName

/-- The collision while-loop: starting from candidate k, return the first
candidate not present on disk; the fuel bounds the number of existence
checks and is chosen large enough that it never runs out. -/
def findFreeLoop (fs : FS) (extractTo fileName : String) : Nat → Nat → String
  | 0, k => candidateAt extractTo fileName k
  | fuel + 1, k =>
    let c := candidateAt extractTo fileName k
    if fs.fileExists c then findFreeLoop fs extractTo fileName fuel (k + 1) else c

/-- Resolution of the final on-disk location of an entry's leaf name, the
whole duplicate-filename while-loop of the extractor. -/
def resolveTarget (fs : FS) (extractTo fileName : String) : String :=
  findFreeLoop fs extractTo fileName (fs.files.length + 1) 0

/-- State of one extraction call: the names already seen (processedEntries),
the successfully written locations in processing order (the resolved values
of the write promises), and the filesystem. -/
structure ExtrState where
  processed : List String
  written : List String
  fs : FS
deriving DecidableEq

/-- Processing of a single archive entry, the body of the extractor's entry
handler: duplicate-name skip, directory skip, extension filter, resource-fork
skip, then collision resolution and the streamed write. -/
def processEntry (extractTo : String) (st : ExtrState) (e : ZipEntry) : ExtrState :=
  if st.processed.contains e.fileName then st
  else if endsSlash e.fileName then { st with processed := e.fileName :: st.processed }
  else if !isImageFile e.fileName then { st with processed := e.fileName :: st.processed }
  else if strStartsWith (basename e.fileName) "._" then
    { st with processed := e.fileName :: st.processed }
  else
    let finalPath := resolveTarget st.fs extractTo (basename e.fileName)
    { processed := e.fileName :: st.processed,
      written := st.written ++ [finalPath],
      fs := st.fs.writeFile finalPath e.content }

/-- Sequential processing of a list of entries from a given state. -/
def runFrom (extractTo : String) (st : ExtrState) (entries : List ZipEntry) : ExtrState :=
  entries.foldl (processEntry extractTo) st

/-- One whole extraction pass over the container's entries, starting from an
empty seen-set and an empty write list. -/
def extractRun (extractTo : String) (entries : List ZipEntry) (fs0 : FS) : ExtrState :=
  runFrom extractTo ⟨[], [], fs0⟩ entries

/-- Order-preserving removal of duplicate strings, keeping first
occurrences: Array.from(new Set(..)). -/
def dedupFirstAux (seen : List String) : List String → List String
  | [] => []
  | x :: xs => if seen.contains x then dedupFirstAux seen xs else x :: dedupFirstAux (x :: seen) xs

/-- Deduplication keeping first occurrences, as the Set-based passes do. -/
def dedupFirst (l : List String) : List String := dedupFirstAux [] l

/-- The extractor extractZip: a container is either unreadable (yauzl
reports an error, modelled as none) or a list of entries read in container
order; on success the deduplicated list of written locations and the
resulting filesystem are returned. -/
def extractZip (zip : Option (List ZipEntry)) (extractTo : String) (fs0 : FS) :
    Except Unit (List String × FS) :=
  match zip with
  | none => Except.error ()
  | some entries =>
    let st := extractRun extractTo entries fs0
    Except.ok (dedupFirst st.written, st.fs)

/-- Number of entries that the extractor materializes from a container, given
a seen-set: first occurrences of a name that pass the keep decision. -/
def countQ (seen : List String) : List ZipEntry → Nat
  | [] => 0
  | e :: es =>
    if seen.contains e.fileName then countQ seen es
    else (if keepName e.fileName then 1 else 0) + countQ (e.fileName :: seen) es

/-- Relative path below a root (path.relative at the upload handler's call
site, where the file always lies below the storage root). -/
def relativeTo (root p : String) : String :=
  if strStartsWith p (root ++ "/") then String.mk (p.data.drop (root ++ "/").data.length)
  else p

/-- Mapping of an extracted file location to its public URL, as the upload
handler builds it: relative path, backslashes to slashes, a defensive strip
of a leading slash, and the fixed routing prefix. -/
def toUrl (filePath : String) : String :=
  let relativePath := relativeTo UPLOAD_DIR filePath
  let urlPath := replaceBsl relativePath
  let cleanPath := if strStartsWith urlPath "/" then String.mk (urlPath.data.drop 1) else urlPath
  "/api/images/" ++ cleanPath

/-- Outcome of the upload POST handler: the JSON success payload, a 400
response with its error message, or the catch-all 500 response. -/
inductive UploadOutcome where
  | ok (imageUrls : List String) (extractDir : String)
  | clientError (msg : String)
  | serverError
deriving DecidableEq

/-- The staging location of the uploaded archive for one request, named from
the request's timestamp exactly as the handler builds tempZipPath. -/
def tempZipPathOf (ts : Nat) : String := TEMP_DIR ++ "/upload_" ++ decStr ts ++ ".zip"

/-- The session extraction directory for one request, named from the
request's timestamp exactly as the handler builds extractDir. -/
def extractDirOf (ts : Nat) : String := UPLOAD_DIR ++ "/extract_" ++ decStr ts

/-- The filesystem after the handler's staging steps: the uploaded bytes
written to the staging file and the fresh session directory created. -/
def stagedFS (fs0 : FS) (ts : Nat) : FS :=
  (fs0.writeFile (tempZipPathOf ts) []).mkdir (extractDirOf ts)

/-- The extraction state produced by the handler's call to the extractor. -/
def postRun (entries : List ZipEntry) (ts : Nat) (fs0 : FS) : ExtrState :=
  extractRun (extractDirOf ts) entries (stagedFS fs0 ts)

/-- The upload POST handler: suffix check, staging write, session directory
creation, extraction, the two bounds checks, sort, the deduplication and
existence-filter passes, URL mapping, staging cleanup and the final bounds
check, exactly in the order the route performs them. -/
def uploadPOST (fileName : String) (zip : Option (List ZipEntry)) (ts : Nat) (fs0 : FS) :
    UploadOutcome × FS :=
  if !strEndsWith fileName ".zip" then (UploadOutcome.clientError "File must be a ZIP file", fs0)
  else
    let tempZipPath := tempZipPathOf ts
    let fs1 := fs0.writeFile tempZipPath []
    let extractDir := extractDirOf ts
    let fs2 := fs1.mkdir extractDir
    match extractZip zip extractDir fs2 with
    | Except.error _ => (UploadOutcome.serverError, fs2)
    | Except.ok (extractedFiles, fs3) =>
      if extractedFiles.length = 0 then
        (UploadOutcome.clientError "No images found in ZIP file",
          (fs3.removeAll extractDir).removeAll tempZipPath)
      else if extractedFiles.length > 100 then
        (UploadOutcome.clientError "ZIP file contains more than 100 images",
          (fs3.removeAll extractDir).removeAll tempZipPath)
      else
        let sortedFiles := List.insertionSort strLe extractedFiles
        let uniqueFiles := dedupFirst sortedFiles
        let existingFiles := uniqueFiles.filter fs3.fileExists
        let imageUrls := existingFiles.map toUrl
        let uniqueUrls := dedupFirst imageUrls
        let fs4 := fs3.removeAll tempZipPath
        let finalUrls := dedupFirst uniqueUrls
        if finalUrls.length > 100 then (UploadOutcome.clientError "Too many images", fs4)
        else (UploadOutcome.ok finalUrls extractDir, fs4)

/-- One normalization step of POSIX path resolution: empty and dot segments
vanish, a dot-dot segment pops, anything else is pushed. -/
def normStep (stack : List String) (seg : String) : List String :=
  if seg = "" ∨ seg = "." then stack
  else if seg = ".." then stack.dropLast
  else stack ++ [seg]

/-- Normalization of a segment list of an absolute path. -/
def normSegs (segs : List String) : List String := segs.foldl normStep []

/-- Rendering of normalized segments as an absolute path string. -/
def renderAbs (segs : List String) : String :=
  String.mk ('/' :: joinSlash (segs.map String.data))

/-- Joining and canonicalizing path parts into an absolute path: the
combined effect of path.join on the absolute upload directory followed by
path.resolve in the serving route. -/
def resolveAbs (parts : List String) : String :=
  renderAbs (normSegs ((parts.map splitSegs).flatten))

/-- Outcome of the image-serving GET handler. -/
inductive ServeOutcome where
  | invalidPath
  | forbidden
  | notFound
  | ok (bytes : List Nat) (contentType : String)
deriving DecidableEq

/-- MIME type derived from a lower-cased extension, with image/jpeg as the
default, as the serving route chooses it. -/
def contentTypeFor (ext : String) : String :=
  if ext = ".png" then "image/png"
  else if ext = ".gif" then "image/gif"
  else if ext = ".webp" then "image/webp"
  else if ext = ".bmp" then "image/bmp"
  else "image/jpeg"

/-- The image-serving GET handler: join the catch-all segments below the
storage root, canonicalize, compare against the root by a string-prefix
test, then look the file up and serve it with its extension-derived MIME
type. -/
def imagesGET (fs : FS) (pathSegments : List String) : ServeOutcome :=
  if pathSegments.isEmpty then ServeOutcome.invalidPath
  else
    let filePath := resolveAbs (UPLOAD_DIR :: pathSegments)
    let resolvedPath := filePath
    if !strStartsWith resolvedPath UPLOAD_DIR then ServeOutcome.forbidden
    else
      match fs.readFile filePath with
      | none => ServeOutcome.notFound
      | some bytes => ServeOutcome.ok bytes (contentTypeFor (strToLower (extname filePath)))

/-- Modelled from the spec: the serving collaborator must call the Address
Resolver with everything after the fixed routing prefix.  The HTTP layer
(not part of the repository's sources) splits the path portion after the
three leading segments of the /api/images namespace into the catch-all
segment list it hands to the GET handler. -/
def resolvePublic (fs : FS) (address : String) : ServeOutcome :=
  imagesGET fs ((splitSegs address).drop 3)

/-- The spec's notion of a location lying at or below the storage root:
the root itself, or strictly below it via a path-separator boundary. -/
def isDescendantOf (p root : String) : Prop :=
  p = root ∨ strStartsWith p (root ++ "/") = true

/-- Modelled from the spec: percent-encoding of special characters in a
Public Address (the spec's encoding contract; the repository's upload route
performs no such encoding).  Unreserved characters and the slash are kept,
every other character becomes a percent sign followed by two hex digits. -/
def percentEncodeChar (c : Char) : List Char :=
  if c.isAlphanum ∨ c ∈ ['-', '.', '_', '~', '/'] then [c]
  else '%' :: [Nat.digitChar (c.toNat / 16 % 16), Nat.digitChar (c.toNat % 16)]

/-- Modelled from the spec: percent-encoding of a whole string. -/
def percentEncode (s : String) : String :=
  String.mk ((s.data.map percentEncodeChar).flatten)

/-- Modelled from the spec: the Public Address the spec's encoding contract
would assign to a file location — relative to the storage root, separators
normalized, percent-encoded, and prefixed by the routing segment. -/
def specAddressOf (loc : String) : String :=
  "/api/images/" ++ percentEncode (replaceBsl (relativeTo UPLOAD_DIR loc))

/-! ### Basic facts about the string primitives -/

theorem mk_data_eq (s : String) : String.mk s.data = s := by
  cases s
  rfl

theorem mk_inj {a b : List Char} (h : String.mk a = String.mk b) : a = b := by
  injection h

theorem data_inj {a b : String} (h : a.data = b.data) : a = b := by
  cases a
  cases b
  exact congrArg String.mk h

theorem lexLe_refl (a : List Char) : lexLe a a = true := by
  induction a with
  | nil => rfl
  | cons x xs ih => simp [lexLe, lt_irrefl, ih]

theorem lexLe_cons_iff (x y : Char) (xs ys : List Char) :
    lexLe (x :: xs) (y :: ys) = true ↔ x < y ∨ (x = y ∧ lexLe xs ys = true) := by
  simp only [lexLe]
  rcases lt_trichotomy x y with h | h | h
  · simp [h]
  · subst h
    simp [lt_irrefl]
  · simp [asymm h, h, ne_of_gt h]

theorem lexLe_trans : ∀ a b c : List Char,
    lexLe a b = true → lexLe b c = true → lexLe a c = true := by
  intro a
  induction a with
  | nil => intro b c _ _; rfl
  | cons x xs ih =>
    intro b c hab hbc
    cases b with
    | nil => simp [lexLe] at hab
    | cons y ys =>
      cases c with
      | nil => simp [lexLe] at hbc
      | cons z zs =>
        rcases (lexLe_cons_iff x y xs ys).1 hab with h1 | ⟨h1, h1t⟩
        · rcases (lexLe_cons_iff y z ys zs).1 hbc with h2 | ⟨h2, _⟩
          · exact (lexLe_cons_iff x z xs zs).2 (Or.inl (lt_trans h1 h2))
          · exact (lexLe_cons_iff x z xs zs).2 (Or.inl (h2 ▸ h1))
        · subst h1
          rcases (lexLe_cons_iff x z ys zs).1 hbc with h2 | ⟨h2, h2t⟩
          · exact (lexLe_cons_iff x z xs zs).2 (Or.inl h2)
          · exact (lexLe_cons_iff x z xs zs).2 (Or.inr ⟨h2, ih ys zs h1t h2t⟩)

theorem lexLe_total : ∀ a b : List Char, lexLe a b = true ∨ lexLe b a = true := by
  intro a
  induction a with
  | nil => intro b; exact Or.inl rfl
  | cons x xs ih =>
    intro b
    cases b with
    | nil => exact Or.inr rfl
    | cons y ys =>
      rcases lt_trichotomy x y with h | h | h
      · exact Or.inl ((lexLe_cons_iff x y xs ys).2 (Or.inl h))
      · subst h
        rcases ih ys with h2 | h2
        · exact Or.inl ((lexLe_cons_iff x x xs ys).2 (Or.inr ⟨rfl, h2⟩))
        · exact Or.inr ((lexLe_cons_iff x x ys xs).2 (Or.inr ⟨rfl, h2⟩))
      · exact Or.inr ((lexLe_cons_iff y x ys xs).2 (Or.inl h))

theorem lexLe_append (p : List Char) : ∀ a b : List Char,
    lexLe (p ++ a) (p ++ b) = lexLe a b := by
  induction p with
  | nil => intro a b; rfl
  | cons x xs ih => intro a b; simp [lexLe, lt_irrefl, ih]

theorem strLe_append_iff (p a b : String) : strLe (p ++ a) (p ++ b) ↔ strLe a b := by
  unfold strLe
  rw [String.data_append, String.data_append, lexLe_append]

theorem strLe_trans_thm : ∀ a b c : String, strLe a b → strLe b c → strLe a c := by
  intro a b c hab hbc
  exact lexLe_trans a.data b.data c.data hab hbc

theorem strLe_total_thm : ∀ a b : String, strLe a b ∨ strLe b a := by
  intro a b
  exact lexLe_total a.data b.data

/-! ### Decimal strings -/

theorem evalDigits_append_digit (l : List Char) (c : Char) :
    evalDigits (l ++ [c]) = evalDigits l * 10 + digitVal c := by
  simp [evalDigits, List.foldl_append]

theorem decDigitsAux_eval : ∀ fuel n, n < fuel → evalDigits (decDigitsAux fuel n) = n := by
  intro fuel
  induction fuel with
  | zero => intro n h; exact absurd h (Nat.not_lt_zero n)
  | succ f ih =>
    intro n h
    have hd : ∀ m, m < 10 → digitVal (Nat.digitChar m) = m := by decide
    by_cases h10 : n < 10
    · simp [decDigitsAux, h10, evalDigits, hd n h10]
    · rw [decDigitsAux, if_neg h10, evalDigits_append_digit]
      have hdiv : n / 10 < f := by
        have h1 : n / 10 < n := Nat.div_lt_self (by omega) (by omega)
        omega
      rw [ih (n / 10) hdiv, hd (n % 10) (Nat.mod_lt _ (by omega))]
      omega

theorem decStr_inj {m n : Nat} (h : decStr m = decStr n) : m = n := by
  have h2 : decDigitsAux (m + 1) m = decDigitsAux (n + 1) n := mk_inj h
  have h3 := decDigitsAux_eval (m + 1) m (Nat.lt_succ_self m)
  have h4 := decDigitsAux_eval (n + 1) n (Nat.lt_succ_self n)
  rw [← h3, ← h4, h2]

theorem decStr_data_ne_nil (n : Nat) : (decStr n).data ≠ [] := by
  show decDigitsAux (n + 1) n ≠ []
  rw [decDigitsAux]
  split
  · simp
  · simp

theorem decDigitsAux_chars : ∀ fuel n c, c ∈ decDigitsAux fuel n → ∃ i, i < 10 ∧ c = Nat.digitChar i := by
  intro fuel
  induction fuel with
  | zero => intro n c h; simp [decDigitsAux] at h
  | succ f ih =>
    intro n c h
    rw [decDigitsAux] at h
    split at h
    · simp at h
      exact ⟨n, by omega, h⟩
    · rcases List.mem_append.1 h with h1 | h1
      · exact ih (n / 10) c h1
      · simp at h1
        exact ⟨n % 10, Nat.mod_lt _ (by omega), h1⟩

theorem decStr_chars {n : Nat} {c : Char} (h : c ∈ (decStr n).data) : '0' ≤ c ∧ c ≤ '9' := by
  obtain ⟨i, hi, rfl⟩ := decDigitsAux_chars (n + 1) n c h
  have key : ∀ i, i < 10 → '0' ≤ Nat.digitChar i ∧ Nat.digitChar i ≤ '9' := by decide
  exact key i hi

/-! ### Membership and deduplication -/

theorem contains_iff (l : List String) (a : String) : l.contains a = true ↔ a ∈ l := by
  simp

theorem contains_eq_false_iff (l : List String) (a : String) : l.contains a = false ↔ a ∉ l := by
  rw [← contains_iff l a]
  cases h : l.contains a <;> simp

theorem dedupFirstAux_length_le (l : List String) : ∀ seen, (dedupFirstAux seen l).length ≤ l.length := by
  induction l with
  | nil => intro seen; simp [dedupFirstAux]
  | cons x xs ih =>
    intro seen
    rw [dedupFirstAux]
    split
    · exact Nat.le_trans (ih seen) (Nat.le_succ _)
    · simpa using ih (x :: seen)

theorem dedupFirst_length_le (l : List String) : (dedupFirst l).length ≤ l.length :=
  dedupFirstAux_length_le l []

theorem dedupFirstAux_eq_self (l : List String) : ∀ seen, (∀ x ∈ l, x ∉ seen) → l.Nodup →
    dedupFirstAux seen l = l := by
  induction l with
  | nil => intro seen _ _; rfl
  | cons x xs ih =>
    intro seen hdisj hnd
    have hc : seen.contains x = false := by
      rw [contains_eq_false_iff]
      exact hdisj x (List.mem_cons_self x xs)
    have hdisj2 : ∀ y ∈ xs, y ∉ x :: seen := by
      intro y hy
      simp only [List.mem_cons, not_or]
      exact ⟨fun h => (List.nodup_cons.1 hnd).1 (h ▸ hy), hdisj y (List.mem_cons_of_mem x hy)⟩
    rw [dedupFirstAux, if_neg (by rw [hc]; exact Bool.false_ne_true),
      ih (x :: seen) hdisj2 (List.nodup_cons.1 hnd).2]

theorem dedupFirst_eq_self {l : List String} (h : l.Nodup) : dedupFirst l = l :=
  dedupFirstAux_eq_self l [] (by simp) h

/-! ### Filesystem lemmas -/

theorem fileExists_eq_readFile (fs : FS) (p : String) :
    fs.fileExists p = (fs.readFile p).isSome := rfl

theorem readFile_write_self (fs : FS) (p : String) (b : List Nat) :
    (fs.writeFile p b).readFile p = some b := by
  simp [FS.writeFile, FS.readFile, List.lookup]

theorem readFile_write_ne (fs : FS) (p : String) (b : List Nat) {q : String} (h : q ≠ p) :
    (fs.writeFile p b).readFile q = fs.readFile q := by
  simp only [FS.writeFile, FS.readFile, List.lookup]
  rw [show (q == p) = false by simp [h]]

theorem fileExists_write_self (fs : FS) (p : String) (b : List Nat) :
    (fs.writeFile p b).fileExists p = true := by
  rw [fileExists_eq_readFile, readFile_write_self]
  rfl

theorem fileExists_write_mono (fs : FS) (p : String) (b : List Nat) {q : String}
    (h : fs.fileExists q = true) : (fs.writeFile p b).fileExists q = true := by
  by_cases hq : q = p
  · subst hq
    exact fileExists_write_self fs q b
  · rw [fileExists_eq_readFile, readFile_write_ne fs p b hq, ← fileExists_eq_readFile]
    exact h

theorem lookup_filter (files : List (String × List Nat)) (pred : String → Bool) (p : String) :
    (files.filter (fun kv => pred kv.1)).lookup p
      = if pred p then files.lookup p else none := by
  induction files with
  | nil => simp
  | cons kv rest ih =>
    obtain ⟨k, v⟩ := kv
    by_cases hk : k = p
    · subst hk
      by_cases hp : pred k
      · simp [List.filter_cons, hp, List.lookup]
      · simp only [List.filter_cons]
        rw [if_neg (by simp [hp])]
        rw [ih]
        simp [hp]
    · have hpk : (p == k) = false := by simp [Ne.symm hk]
      by_cases hp : pred k
      · simp only [List.filter_cons]
        rw [if_pos (by simp [hp])]
        simp only [List.lookup]
        rw [hpk]
        exact ih
      · simp only [List.filter_cons]
        rw [if_neg (by simp [hp])]
        rw [ih]
        simp only [List.lookup]
        rw [hpk]

theorem removeAll_readFile_of_not (fs : FS) (q p : String)
    (h : (p == q || strStartsWith p (q ++ "/")) = false) :
    (fs.removeAll q).readFile p = fs.readFile p := by
  show (fs.files.filter (fun kv => !(kv.1 == q || strStartsWith kv.1 (q ++ "/")))).lookup p = _
  rw [lookup_filter fs.files (fun x => !(x == q || strStartsWith x (q ++ "/"))) p]
  simp only [h]
  rfl

theorem removeAll_fileExists_of_under (fs : FS) (q p : String)
    (h : (p == q || strStartsWith p (q ++ "/")) = true) :
    (fs.removeAll q).fileExists p = false := by
  show ((fs.files.filter (fun kv => !(kv.1 == q || strStartsWith kv.1 (q ++ "/")))).lookup p).isSome = false
  rw [lookup_filter fs.files (fun x => !(x == q || strStartsWith x (q ++ "/"))) p]
  simp [h]

theorem removeAll_fileExists_of_not (fs : FS) (q p : String)
    (h : (p == q || strStartsWith p (q ++ "/")) = false) :
    (fs.removeAll q).fileExists p = fs.fileExists p := by
  rw [fileExists_eq_readFile, removeAll_readFile_of_not fs q p h, ← fileExists_eq_readFile]

theorem removeAll_dirs_not_mem (fs : FS) (q d : String)
    (h : (d == q || strStartsWith d (q ++ "/")) = true) :
    d ∉ (fs.removeAll q).dirs := by
  intro hmem
  simp only [FS.removeAll, List.mem_filter] at hmem
  rw [h] at hmem
  simp at hmem

theorem removeAll_dirs_subset (fs : FS) (q d : String) (h : d ∈ (fs.removeAll q).dirs) :
    d ∈ fs.dirs := by
  simp only [FS.removeAll, List.mem_filter] at h
  exact h.1

/-! ### String prefix lemmas -/

theorem strStartsWith_iff (s t : String) : strStartsWith s t = true ↔ t.data <+: s.data := by
  unfold strStartsWith
  exact List.isPrefixOf_iff_prefix

theorem strStartsWith_append (a x : String) : strStartsWith (a ++ x) a = true := by
  rw [strStartsWith_iff, String.data_append]
  exact List.prefix_append a.data x.data

theorem str_append_cancel_left {a b c : String} (h : a ++ b = a ++ c) : b = c := by
  have h2 : a.data ++ b.data = a.data ++ c.data := by
    rw [← String.data_append, ← String.data_append, h]
  exact data_inj (List.append_cancel_left h2)

theorem str_append_cancel_right {a b c : String} (h : a ++ c = b ++ c) : a = b := by
  have h2 : a.data ++ c.data = b.data ++ c.data := by
    rw [← String.data_append, ← String.data_append, h]
  exact data_inj (List.append_cancel_right h2)

theorem prefix_take {l₁ l₂ : List Char} (h : l₁ <+: l₂) {n : Nat} (hn : n ≤ l₁.length) :
    l₂.take n = l₁.take n := by
  obtain ⟨t, rfl⟩ := h
  exact List.take_append_of_le_length hn

/-! ### Collision resolution -/

theorem candidateAt_zero_len (eT fn : String) :
    (candidateAt eT fn 0).data.length = eT.data.length + 1 + fn.data.length := by
  simp [candidateAt, String.data_append]
  omega

theorem candidateAt_succ_len (eT fn : String) (k : Nat) :
    (candidateAt eT fn (k + 1)).data.length
      = eT.data.length + 1 + (fn.data.length - (extname fn).data.length) + 1
          + (decStr (k + 1)).data.length + (extname fn).data.length := by
  simp [candidateAt, String.data_append, stripExt, decStr]
  omega

theorem candidateAt_inj (eT fn : String) : Function.Injective (candidateAt eT fn) := by
  have hdec : ∀ m : Nat, 1 ≤ (decStr m).data.length := by
    intro m
    exact List.length_pos.2 (decStr_data_ne_nil m)
  intro j k h
  match j, k with
  | 0, 0 => rfl
  | 0, k + 1 =>
    exfalso
    have hl := congrArg (fun s => s.data.length) h
    simp only at hl
    rw [candidateAt_zero_len, candidateAt_succ_len] at hl
    have := hdec (k + 1)
    omega
  | j + 1, 0 =>
    exfalso
    have hl := congrArg (fun s => s.data.length) h
    simp only at hl
    rw [candidateAt_zero_len, candidateAt_succ_len] at hl
    have := hdec (j + 1)
    omega
  | j + 1, k + 1 =>
    have h2 : eT ++ "/" ++ stripExt fn ++ "_" ++ decStr (j + 1)
        = eT ++ "/" ++ stripExt fn ++ "_" ++ decStr (k + 1) := str_append_cancel_right h
    have h3 : decStr (j + 1) = decStr (k + 1) := str_append_cancel_left h2
    have h4 := decStr_inj h3
    omega

theorem lookup_isSome_iff (files : List (String × List Nat)) (p : String) :
    (files.lookup p).isSome = true ↔ p ∈ files.map Prod.fst := by
  induction files with
  | nil => simp
  | cons kv rest ih =>
    obtain ⟨k, v⟩ := kv
    by_cases h : k = p
    · subst h
      simp [List.lookup]
    · simp only [List.lookup]
      rw [show (p == k) = false by simp [Ne.symm h]]
      simp [ih, Ne.symm h]

theorem exists_free_candidate (fs : FS) (eT fn : String) :
    ∃ j, j ≤ fs.files.length ∧ fs.fileExists (candidateAt eT fn j) = false := by
  by_contra hcon
  push_neg at hcon
  have hall : ∀ j, j ≤ fs.files.length → fs.fileExists (candidateAt eT fn j) = true := by
    intro j hj
    have h := hcon j hj
    cases hx : fs.fileExists (candidateAt eT fn j)
    · exact absurd hx h
    · rfl
  have hnd : ((List.range (fs.files.length + 1)).map (candidateAt eT fn)).Nodup :=
    List.Nodup.map (candidateAt_inj eT fn) (List.nodup_range _)
  have hsub : ((List.range (fs.files.length + 1)).map (candidateAt eT fn)).toFinset
      ⊆ (fs.files.map Prod.fst).toFinset := by
    intro x hx
    rw [List.mem_toFinset] at hx ⊢
    obtain ⟨j, hj, rfl⟩ := List.mem_map.1 hx
    rw [List.mem_range] at hj
    exact (lookup_isSome_iff _ _).1 (hall j (by omega))
  have hcard1 : ((List.range (fs.files.length + 1)).map (candidateAt eT fn)).toFinset.card
      = fs.files.length + 1 := by
    rw [List.toFinset_card_of_nodup hnd]
    simp
  have hcard2 := Finset.card_le_card hsub
  have hcard3 := List.toFinset_card_le (fs.files.map Prod.fst)
  rw [List.length_map] at hcard3
  omega

theorem findFreeLoop_spec (fs : FS) (eT fn : String) : ∀ (fuel k0 : Nat),
    (∃ j, j < fuel ∧ fs.fileExists (candidateAt eT fn (k0 + j)) = false) →
    ∃ j, fs.fileExists (candidateAt eT fn (k0 + j)) = false
      ∧ (∀ i, i < j → fs.fileExists (candidateAt eT fn (k0 + i)) = true)
      ∧ findFreeLoop fs eT fn fuel k0 = candidateAt eT fn (k0 + j) := by
  intro fuel
  induction fuel with
  | zero =>
    intro k0 h
    obtain ⟨j, hj, _⟩ := h
    omega
  | succ f ih =>
    intro k0 h
    by_cases h0 : fs.fileExists (candidateAt eT fn k0) = true
    · obtain ⟨j, hj, hfree⟩ := h
      have hjne : j ≠ 0 := by
        intro hj0
        subst hj0
        rw [Nat.add_zero] at hfree
        rw [h0] at hfree
        simp at hfree
      obtain ⟨j1, hj1, hall1, heq1⟩ := ih (k0 + 1)
        ⟨j - 1, by omega, by rw [show k0 + 1 + (j - 1) = k0 + j by omega]; exact hfree⟩
      refine ⟨j1 + 1, ?_, ?_, ?_⟩
      · rw [show k0 + (j1 + 1) = k0 + 1 + j1 by omega]
        exact hj1
      · intro i hi
        match i with
        | 0 => rw [Nat.add_zero]; exact h0
        | i + 1 =>
          rw [show k0 + (i + 1) = k0 + 1 + i by omega]
          exact hall1 i (by omega)
      · rw [findFreeLoop]
        simp only [h0, if_true]
        rw [heq1, show k0 + (j1 + 1) = k0 + 1 + j1 by omega]
    · have h0f : fs.fileExists (candidateAt eT fn k0) = false := by
        cases hx : fs.fileExists (candidateAt eT fn k0)
        · rfl
        · exact absurd hx h0
      refine ⟨0, by rw [Nat.add_zero]; exact h0f, by omega, ?_⟩
      rw [findFreeLoop]
      simp only [h0f]
      rw [Nat.add_zero]
      rfl

theorem resolveTarget_spec (fs : FS) (eT fn : String) :
    ∃ k, fs.fileExists (candidateAt eT fn k) = false
      ∧ (∀ i, i < k → fs.fileExists (candidateAt eT fn i) = true)
      ∧ resolveTarget fs eT fn = candidateAt eT fn k := by
  obtain ⟨j, hj, hfree⟩ := exists_free_candidate fs eT fn
  obtain ⟨k, h1, h2, h3⟩ := findFreeLoop_spec fs eT fn (fs.files.length + 1) 0
    ⟨j, by omega, by rw [Nat.zero_add]; exact hfree⟩
  rw [Nat.zero_add] at h1 h3
  refine ⟨k, h1, ?_, h3⟩
  intro i hi
  have := h2 i hi
  rw [Nat.zero_add] at this
  exact this

theorem resolveTarget_fresh (fs : FS) (eT fn : String) :
    fs.fileExists (resolveTarget fs eT fn) = false := by
  obtain ⟨k, h1, _, h3⟩ := resolveTarget_spec fs eT fn
  rw [h3]
  exact h1

/-! ### Bool helper -/

theorem bool_eq_false {b : Bool} (h : ¬ b = true) : b = false := by
  cases b
  · rfl
  · exact absurd rfl h

/-! ### Character-level path lemmas -/

theorem str_append_assoc (a b c : String) : a ++ b ++ c = a ++ (b ++ c) :=
  String.append_assoc a b c

theorem splitSlash_ne_nil : ∀ l : List Char, splitSlash l ≠ [] := by
  intro l
  cases l with
  | nil => simp [splitSlash]
  | cons c cs =>
    rw [splitSlash]
    cases h : splitSlash cs with
    | nil => simp
    | cons g gs =>
      by_cases hc : c = '/'
      · simp [hc]
      · simp [hc]

theorem splitSlash_pieces : ∀ (l : List Char) (g : List Char), g ∈ splitSlash l →
    ∀ c ∈ g, c ∈ l ∧ c ≠ '/' := by
  intro l
  induction l with
  | nil =>
    intro g hg c hc
    simp [splitSlash] at hg
    subst hg
    simp at hc
  | cons x xs ih =>
    intro g hg c hc
    rw [splitSlash] at hg
    cases h : splitSlash xs with
    | nil => exact absurd h (splitSlash_ne_nil xs)
    | cons g0 gs =>
      simp only [h] at hg
      by_cases hx : x = '/'
      · rw [if_pos hx] at hg
        rcases List.mem_cons.1 hg with rfl | hg2
        · simp at hc
        · have := ih g (h ▸ hg2) c hc
          exact ⟨List.mem_cons_of_mem x this.1, this.2⟩
      · rw [if_neg hx] at hg
        rcases List.mem_cons.1 hg with rfl | hg2
        · rcases List.mem_cons.1 hc with rfl | hc2
          · exact ⟨List.mem_cons_self _ _, hx⟩
          · have := ih g0 (h ▸ List.mem_cons_self g0 gs) c hc2
            exact ⟨List.mem_cons_of_mem x this.1, this.2⟩
        · have := ih g (h ▸ List.mem_cons_of_mem g0 hg2) c hc
          exact ⟨List.mem_cons_of_mem x this.1, this.2⟩

theorem getLastD_mem {α : Type} : ∀ (l : List α) (d : α), l ≠ [] → l.getLastD d ∈ l := by
  intro l
  induction l with
  | nil => intro d h; exact absurd rfl h
  | cons x xs ih =>
    intro d _
    cases hx : xs with
    | nil => simp [List.getLastD]
    | cons y ys =>
      subst hx
      rw [List.getLastD_cons]
      exact List.mem_cons_of_mem x (ih x (by simp))

theorem dropTrailSlashes_chars {l : List Char} {c : Char} (h : c ∈ dropTrailSlashes l) : c ∈ l := by
  unfold dropTrailSlashes at h
  rw [List.mem_reverse] at h
  exact List.mem_reverse.1 (List.Sublist.mem h (List.dropWhile_sublist _))

theorem basename_chars {p : String} {c : Char} (h : c ∈ (basename p).data) :
    c ∈ p.data ∧ c ≠ '/' := by
  unfold basename at h
  have hne := splitSlash_ne_nil (dropTrailSlashes p.data)
  have hmem := getLastD_mem (splitSlash (dropTrailSlashes p.data)) [] hne
  have h2 := splitSlash_pieces (dropTrailSlashes p.data) _ hmem c h
  exact ⟨dropTrailSlashes_chars h2.1, h2.2⟩

theorem dropTrailSlashes_of_no_slash {l : List Char} (h : ('/' : Char) ∉ l) :
    dropTrailSlashes l = l := by
  unfold dropTrailSlashes
  rw [List.dropWhile_eq_self_iff.2, List.reverse_reverse]
  intro hl hc
  apply h
  have heq : l.reverse.get ⟨0, hl⟩ = '/' := by simpa using hc
  have hm : l.reverse.get ⟨0, hl⟩ ∈ l.reverse := List.get_mem _ _ _
  rw [heq] at hm
  exact List.mem_reverse.1 hm

theorem splitSlash_no_slash : ∀ l : List Char, ('/' : Char) ∉ l → splitSlash l = [l] := by
  intro l
  induction l with
  | nil => intro _; rfl
  | cons x xs ih =>
    intro h
    rw [splitSlash]
    have hx : x ≠ '/' := fun hc => h (hc ▸ List.mem_cons_self x xs)
    rw [ih (fun hc => h (List.mem_cons_of_mem x hc))]
    simp [hx]

theorem basename_of_no_slash {s : String} (h : ('/' : Char) ∉ s.data) : basename s = s := by
  unfold basename
  rw [dropTrailSlashes_of_no_slash h, splitSlash_no_slash s.data h]
  exact mk_data_eq s

theorem basename_no_slash (p : String) : ('/' : Char) ∉ (basename p).data := by
  intro h
  exact (basename_chars h).2 rfl

theorem basename_idem (p : String) : basename (basename p) = basename p :=
  basename_of_no_slash (basename_no_slash p)

theorem extname_basename (p : String) : extname (basename p) = extname p := by
  unfold extname
  rw [basename_idem]

theorem isImageFile_basename (p : String) : isImageFile (basename p) = isImageFile p := by
  unfold isImageFile
  rw [extname_basename]

theorem stripExt_chars {fn : String} {c : Char} (h : c ∈ (stripExt fn).data) : c ∈ fn.data := by
  unfold stripExt at h
  exact List.Sublist.mem h (List.take_sublist _ _)

/-! ### Structure of extensions of kept entries -/

theorem extname_cases (p : String) :
    extname p = "" ∨
    (extname p = String.mk ('.' :: ((basename p).data.reverse.takeWhile (fun c => c != '.')).reverse)
      ∧ ((basename p).data.reverse.takeWhile (fun c => c != '.')).length + 2
          ≤ (basename p).data.length) := by
  simp only [extname]
  by_cases h1 : ((basename p).data.reverse.takeWhile (fun c => c != '.')).length
      = (basename p).data.length
  · rw [if_pos h1]
    exact Or.inl rfl
  · rw [if_neg h1]
    by_cases h2 : ((basename p).data.reverse.takeWhile (fun c => c != '.')).length + 1
        = (basename p).data.length
    · rw [if_pos h2]
      exact Or.inl rfl
    · rw [if_neg h2]
      refine Or.inr ⟨rfl, ?_⟩
      have hle := (List.takeWhile_sublist (l := (basename p).data.reverse)
        (fun c => c != '.')).length_le
      rw [List.length_reverse] at hle
      omega

theorem extname_parts {p : String} (himg : isImageFile p = true) :
    4 ≤ (extname p).data.length
    ∧ (extname p).data.length + 1 ≤ (basename p).data.length
    ∧ ∀ c ∈ (extname p).data, c = '.' ∨ c ∈ (basename p).data := by
  have hmem : strToLower (extname p) ∈ IMAGE_EXTENSIONS := (contains_iff _ _).1 himg
  rcases extname_cases p with h0 | ⟨hext, hlen⟩
  · exfalso
    rw [h0] at hmem
    revert hmem
    decide
  · have hextlen : (extname p).data.length
        = ((basename p).data.reverse.takeWhile (fun c => c != '.')).length + 1 := by
      rw [hext]
      simp
    refine ⟨?_, ?_, ?_⟩
    · have hlow : (strToLower (extname p)).data.length = (extname p).data.length := by
        simp [strToLower]
      have h4 : 4 ≤ (strToLower (extname p)).data.length := by
        simp only [IMAGE_EXTENSIONS, List.mem_cons, List.not_mem_nil, or_false] at hmem
        rcases hmem with h | h | h | h | h | h <;> rw [h] <;> decide
      omega
    · omega
    · intro c hc
      rw [hext] at hc
      simp only [List.mem_cons] at hc
      rcases hc with rfl | hc2
      · exact Or.inl rfl
      · right
        have hm2 : c ∈ (basename p).data.reverse :=
          List.Sublist.mem (List.mem_reverse.1 hc2) (List.takeWhile_sublist _)
        exact List.mem_reverse.1 hm2

theorem candidateAt_shape (bad : List Char) (hdot : ('.' : Char) ∉ bad)
    (hus : ('_' : Char) ∉ bad) (hdig : ∀ c ∈ bad, ¬('0' ≤ c ∧ c ≤ '9'))
    (eT fn : String) (k : Nat)
    (himg : isImageFile fn = true)
    (hfn : ∀ c ∈ fn.data, c ≠ '/' ∧ c ∉ bad)
    (hbase : basename fn = fn) :
    ∃ b : String, candidateAt eT fn k = eT ++ "/" ++ b ∧ 4 ≤ b.data.length
      ∧ ∀ c ∈ b.data, c ≠ '/' ∧ c ∉ bad := by
  obtain ⟨he4, helen, hechars⟩ := extname_parts himg
  rw [hbase] at helen hechars
  match k with
  | 0 =>
    exact ⟨fn, rfl, by omega, hfn⟩
  | Nat.succ k =>
    refine ⟨stripExt fn ++ "_" ++ decStr (k + 1) ++ extname fn, ?_, ?_, ?_⟩
    · apply data_inj
      simp [candidateAt, String.data_append]
    · simp only [String.data_append, List.length_append]
      have h1 : ("_" : String).data.length = 1 := by decide
      have hd := List.length_pos.2 (decStr_data_ne_nil (k + 1))
      omega
    · intro c hc
      simp only [String.data_append, List.mem_append] at hc
      rcases hc with ((hc | hc) | hc) | hc
      · exact hfn c (stripExt_chars hc)
      · have hcu : c = '_' := by simpa using hc
        subst hcu
        exact ⟨by decide, hus⟩
      · have hd := decStr_chars hc
        refine ⟨?_, ?_⟩
        · intro hcs
          rw [hcs] at hd
          revert hd
          decide
        · intro hbadmem
          exact hdig c hbadmem hd
      · rcases hechars c hc with rfl | hcf
        · exact ⟨by decide, hdot⟩
        · exact hfn c hcf

/-! ### Branch equations for entry processing -/

theorem processEntry_of_contains {eT : String} {st : ExtrState} {e : ZipEntry}
    (h : st.processed.contains e.fileName = true) : processEntry eT st e = st := by
  rw [processEntry, if_pos h]

theorem processEntry_not_kept (eT : String) (st : ExtrState) (e : ZipEntry)
    (hc : st.processed.contains e.fileName = false) (hk : keepName e.fileName = false) :
    processEntry eT st e = { st with processed := e.fileName :: st.processed } := by
  rw [processEntry, if_neg (by rw [hc]; exact Bool.false_ne_true)]
  by_cases h1 : endsSlash e.fileName = true
  · rw [if_pos h1]
  · rw [if_neg h1]
    have h1f : endsSlash e.fileName = false := bool_eq_false h1
    by_cases h2 : isImageFile e.fileName = true
    · rw [if_neg (by simp [h2])]
      by_cases h3 : strStartsWith (basename e.fileName) "._" = true
      · rw [if_pos h3]
      · exfalso
        have hkt : keepName e.fileName = true := by
          simp [keepName, h1f, h2, bool_eq_false h3]
        rw [hkt] at hk
        exact Bool.false_ne_true hk.symm
    · rw [if_pos (by simp [bool_eq_false h2])]

theorem processEntry_kept (eT : String) (st : ExtrState) (e : ZipEntry)
    (hc : st.processed.contains e.fileName = false) (hk : keepName e.fileName = true) :
    processEntry eT st e =
      { processed := e.fileName :: st.processed,
        written := st.written ++ [resolveTarget st.fs eT (basename e.fileName)],
        fs := st.fs.writeFile (resolveTarget st.fs eT (basename e.fileName)) e.content } := by
  simp only [keepName, Bool.and_eq_true, Bool.not_eq_true'] at hk
  obtain ⟨⟨h1, h2⟩, h3⟩ := hk
  rw [processEntry, if_neg (by rw [hc]; exact Bool.false_ne_true), if_neg (by simp [h1]),
    if_neg (by simp [h2]), if_neg (by simp [h3])]

theorem processEntry_processed_of_not_contains {eT : String} {st : ExtrState} {e : ZipEntry}
    (hc : st.processed.contains e.fileName = false) :
    (processEntry eT st e).processed = e.fileName :: st.processed := by
  by_cases hk : keepName e.fileName = true
  · rw [processEntry_kept eT st e hc hk]
  · rw [processEntry_not_kept eT st e hc (bool_eq_false hk)]

theorem keepName_parts {name : String} (h : keepName name = true) :
    endsSlash name = false ∧ isImageFile name = true
      ∧ strStartsWith (basename name) "._" = false := by
  simp only [keepName, Bool.and_eq_true, Bool.not_eq_true'] at h
  exact ⟨h.1.1, h.1.2, h.2⟩

theorem processEntry_kept_fields (eT : String) (st : ExtrState) (e : ZipEntry)
    (hc : st.processed.contains e.fileName = false) (hk : keepName e.fileName = true) :
    (processEntry eT st e).written
        = st.written ++ [resolveTarget st.fs eT (basename e.fileName)]
    ∧ (processEntry eT st e).fs
        = st.fs.writeFile (resolveTarget st.fs eT (basename e.fileName)) e.content := by
  rw [processEntry_kept eT st e hc hk]
  exact ⟨rfl, rfl⟩

theorem processEntry_skip_fields (eT : String) (st : ExtrState) (e : ZipEntry)
    (h : st.processed.contains e.fileName = true ∨ keepName e.fileName = false) :
    (processEntry eT st e).written = st.written ∧ (processEntry eT st e).fs = st.fs := by
  cases hb : st.processed.contains e.fileName
  · rcases h with h | h
    · rw [hb] at h
      exact absurd h Bool.false_ne_true
    · rw [processEntry_not_kept eT st e hb h]
      exact ⟨rfl, rfl⟩
  · rw [processEntry_of_contains hb]
    exact ⟨rfl, rfl⟩

theorem runFrom_nil (eT : String) (st : ExtrState) : runFrom eT st [] = st := rfl

theorem runFrom_cons (eT : String) (st : ExtrState) (e : ZipEntry) (es : List ZipEntry) :
    runFrom eT st (e :: es) = runFrom eT (processEntry eT st e) es := rfl

theorem runFrom_append (eT : String) (st : ExtrState) (l1 l2 : List ZipEntry) :
    runFrom eT st (l1 ++ l2) = runFrom eT (runFrom eT st l1) l2 := by
  simp [runFrom, List.foldl_append]

theorem processEntry_processed_mem (eT : String) (st : ExtrState) (e : ZipEntry) (n : String) :
    n ∈ (processEntry eT st e).processed ↔ n = e.fileName ∨ n ∈ st.processed := by
  cases hb : st.processed.contains e.fileName
  · rw [processEntry_processed_of_not_contains hb]
    simp
  · rw [processEntry_of_contains hb]
    have hmem := (contains_iff _ _).1 hb
    constructor
    · exact Or.inr
    · rintro (rfl | h)
      · exact hmem
      · exact h

theorem runFrom_processed_mem (eT : String) : ∀ (es : List ZipEntry) (st : ExtrState) (n : String),
    n ∈ (runFrom eT st es).processed ↔ n ∈ es.map ZipEntry.fileName ∨ n ∈ st.processed := by
  intro es
  induction es with
  | nil => intro st n; simp [runFrom]
  | cons e es ih =>
    intro st n
    rw [runFrom_cons, ih, processEntry_processed_mem]
    simp only [List.map_cons, List.mem_cons]
    tauto

theorem runFrom_count (eT : String) : ∀ (es : List ZipEntry) (st : ExtrState),
    (runFrom eT st es).written.length = st.written.length + countQ st.processed es := by
  intro es
  induction es with
  | nil => intro st; simp [runFrom, countQ]
  | cons e es ih =>
    intro st
    rw [runFrom_cons, ih]
    cases hb : st.processed.contains e.fileName
    · rw [countQ, if_neg (by rw [hb]; exact Bool.false_ne_true)]
      by_cases hk : keepName e.fileName = true
      · rw [processEntry_kept eT st e hb hk, if_pos hk]
        simp only [List.length_append, List.length_singleton]
        omega
      · rw [processEntry_not_kept eT st e hb (bool_eq_false hk), if_neg hk]
        simp
    · rw [processEntry_of_contains hb, countQ, if_pos hb]

theorem runFrom_main (eT : String) (pool : List (List Nat)) :
    ∀ (es : List ZipEntry) (st : ExtrState),
    (∀ e ∈ es, e.content ∈ pool) →
    st.written.Nodup →
    (∀ p ∈ st.written, ∃ b, st.fs.readFile p = some b ∧ b ∈ pool) →
    (runFrom eT st es).written.Nodup
      ∧ (∀ p ∈ (runFrom eT st es).written,
          ∃ b, (runFrom eT st es).fs.readFile p = some b ∧ b ∈ pool) := by
  intro es
  induction es with
  | nil => intro st _ h1 h2; exact ⟨h1, h2⟩
  | cons e es ih =>
    intro st hes h1 h2
    rw [runFrom_cons]
    by_cases hcase : st.processed.contains e.fileName = true ∨ keepName e.fileName = false
    · obtain ⟨hw, hf⟩ := processEntry_skip_fields eT st e hcase
      exact ih _ (fun e2 he2 => hes e2 (List.mem_cons_of_mem e he2)) (hw ▸ h1)
        (by rw [hw, hf]; exact h2)
    · push_neg at hcase
      obtain ⟨hcne, hkne⟩ := hcase
      have hb : st.processed.contains e.fileName = false := bool_eq_false hcne
      have hk : keepName e.fileName = true := by
        cases hkk : keepName e.fileName
        · exact absurd hkk hkne
        · rfl
      obtain ⟨hw, hf⟩ := processEntry_kept_fields eT st e hb hk
      have hfresh : st.fs.fileExists (resolveTarget st.fs eT (basename e.fileName)) = false :=
        resolveTarget_fresh st.fs eT (basename e.fileName)
      have hnotin : resolveTarget st.fs eT (basename e.fileName) ∉ st.written := by
        intro hmem
        obtain ⟨b, hread, _⟩ := h2 _ hmem
        rw [fileExists_eq_readFile, hread] at hfresh
        simp at hfresh
      apply ih
      · intro e2 he2
        exact hes e2 (List.mem_cons_of_mem e he2)
      · rw [hw, List.nodup_append]
        refine ⟨h1, List.nodup_singleton _, ?_⟩
        intro a ha hae
        rw [List.mem_singleton] at hae
        subst hae
        exact hnotin ha
      · intro p hp
        rw [hw] at hp
        rw [hf]
        rcases List.mem_append.1 hp with hp1 | hp1
        · obtain ⟨b, hread, hbp⟩ := h2 p hp1
          have hne : p ≠ resolveTarget st.fs eT (basename e.fileName) := by
            intro he2
            subst he2
            exact hnotin hp1
          exact ⟨b, by rw [readFile_write_ne st.fs _ e.content hne]; exact hread, hbp⟩
        · rw [List.mem_singleton] at hp1
          subst hp1
          exact ⟨e.content, readFile_write_self st.fs _ e.content,
            hes e (List.mem_cons_self e es)⟩

theorem runFrom_shape (eT : String) (bad : List Char) (hdot : ('.' : Char) ∉ bad)
    (hus : ('_' : Char) ∉ bad) (hdig : ∀ c ∈ bad, ¬('0' ≤ c ∧ c ≤ '9')) :
    ∀ (es : List ZipEntry) (st : ExtrState),
    (∀ e ∈ es, ∀ c ∈ e.fileName.data, c ∉ bad) →
    (∀ p ∈ st.written, ∃ b : String, p = eT ++ "/" ++ b ∧ 4 ≤ b.data.length
        ∧ ∀ c ∈ b.data, c ≠ '/' ∧ c ∉ bad) →
    ∀ p ∈ (runFrom eT st es).written, ∃ b : String, p = eT ++ "/" ++ b ∧ 4 ≤ b.data.length
        ∧ ∀ c ∈ b.data, c ≠ '/' ∧ c ∉ bad := by
  intro es
  induction es with
  | nil => intro st _ hst; exact hst
  | cons e es ih =>
    intro st hes hst
    rw [runFrom_cons]
    by_cases hcase : st.processed.contains e.fileName = true ∨ keepName e.fileName = false
    · obtain ⟨hw, _⟩ := processEntry_skip_fields eT st e hcase
      exact ih _ (fun e2 he2 => hes e2 (List.mem_cons_of_mem e he2)) (hw ▸ hst)
    · push_neg at hcase
      obtain ⟨hcne, hkne⟩ := hcase
      have hb : st.processed.contains e.fileName = false := bool_eq_false hcne
      have hk : keepName e.fileName = true := by
        cases hkk : keepName e.fileName
        · exact absurd hkk hkne
        · rfl
      obtain ⟨hw, _⟩ := processEntry_kept_fields eT st e hb hk
      apply ih _ (fun e2 he2 => hes e2 (List.mem_cons_of_mem e he2))
      rw [hw]
      intro p hp
      rcases List.mem_append.1 hp with hp1 | hp1
      · exact hst p hp1
      · rw [List.mem_singleton] at hp1
        subst hp1
        obtain ⟨k, _, _, hres⟩ := resolveTarget_spec st.fs eT (basename e.fileName)
        rw [hres]
        have himg : isImageFile (basename e.fileName) = true := by
          rw [isImageFile_basename]
          exact (keepName_parts hk).2.1
        have hfn : ∀ c ∈ (basename e.fileName).data, c ≠ '/' ∧ c ∉ bad := by
          intro c hc
          obtain ⟨hc1, hc2⟩ := basename_chars hc
          exact ⟨hc2, hes e (List.mem_cons_self e es) c hc1⟩
        exact candidateAt_shape bad hdot hus hdig eT (basename e.fileName) k himg hfn
          (basename_idem e.fileName)

theorem candidateAt_startsWith (eT fn : String) (k : Nat) :
    strStartsWith (candidateAt eT fn k) (eT ++ "/") = true := by
  rw [strStartsWith_iff]
  match k with
  | 0 =>
    refine ⟨fn.data, ?_⟩
    simp [candidateAt, String.data_append]
  | Nat.succ k =>
    refine ⟨(stripExt fn).data ++ ("_" : String).data ++ (decStr (k + 1)).data
      ++ (extname fn).data, ?_⟩
    simp [candidateAt, String.data_append]

/-- C5: if an entry name already occurred earlier in the same container, the
extractor skips the later entry entirely: the extraction result (returned
locations and filesystem) is the same as if the duplicate entry were absent,
so only the first occurrence is processed, nothing is emitted for the later
one, and no error is raised. -/
theorem C5_duplicate_entry_skipped (extractTo : String) (fs0 : FS) (l1 : List ZipEntry)
    (e : ZipEntry) (l2 : List ZipEntry)
    (h : ∃ e0 ∈ l1, e0.fileName = e.fileName) :
    extractZip (some (l1 ++ e :: l2)) extractTo fs0
      = extractZip (some (l1 ++ l2)) extractTo fs0 := by
  obtain ⟨e0, he0, hname⟩ := h
  have hmid : (runFrom extractTo ⟨[], [], fs0⟩ l1).processed.contains e.fileName = true := by
    rw [contains_iff, runFrom_processed_mem]
    exact Or.inl (List.mem_map.2 ⟨e0, he0, hname⟩)
  have hrun : extractRun extractTo (l1 ++ e :: l2) fs0 = extractRun extractTo (l1 ++ l2) fs0 := by
    unfold extractRun
    rw [runFrom_append, runFrom_append, runFrom_cons, processEntry_of_contains hmid]
  simp only [extractZip]
  rw [hrun]

theorem C5_duplicate_entry_skipped_witness :
    (∃ e0 ∈ [ZipEntry.mk "a.jpg" [1]], e0.fileName = "a.jpg")
    ∧ extractZip (some ([ZipEntry.mk "a.jpg" [1]] ++ ZipEntry.mk "a.jpg" [2] :: []))
        "/d" ⟨[], []⟩
      = extractZip (some ([ZipEntry.mk "a.jpg" [1]] ++ [])) "/d" ⟨[], []⟩ :=
  ⟨⟨ZipEntry.mk "a.jpg" [1], by decide, by decide⟩,
    C5_duplicate_entry_skipped "/d" ⟨[], []⟩ [ZipEntry.mk "a.jpg" [1]]
      (ZipEntry.mk "a.jpg" [2]) [] ⟨ZipEntry.mk "a.jpg" [1], by decide, by decide⟩⟩

/-- C6: an archive entry whose name was not seen before is materialized by
the extractor (its write list grows by one location) exactly when the entry
filter keeps it: its name does not end in the path-separator marker, its
extension is case-insensitively one of the image allow-list, and its leaf
name does not begin with the resource-fork prefix; in particular an entry
whose leaf starts with that prefix is never materialized. -/
theorem C6_entry_filter_iff (extractTo : String) (st : ExtrState) (e : ZipEntry)
    (hc : st.processed.contains e.fileName = false) :
    (∃ p, (processEntry extractTo st e).written = st.written ++ [p]) ↔
      (endsSlash e.fileName = false ∧ isImageFile e.fileName = true
        ∧ strStartsWith (basename e.fileName) "._" = false) := by
  constructor
  · rintro ⟨p, hp⟩
    by_cases hk : keepName e.fileName = true
    · exact keepName_parts hk
    · exfalso
      rw [processEntry_not_kept extractTo st e hc (bool_eq_false hk)] at hp
      have := congrArg List.length hp
      simp at this
  · rintro ⟨h1, h2, h3⟩
    have hk : keepName e.fileName = true := by
      simp [keepName, h1, h2, h3]
    obtain ⟨hw, _⟩ := processEntry_kept_fields extractTo st e hc hk
    exact ⟨_, hw⟩

theorem C6_entry_filter_iff_witness :
    (([] : List String).contains "sub/x.JPG" = false
      ∧ (∃ p, (processEntry "/d" ⟨[], [], ⟨[], []⟩⟩ (ZipEntry.mk "sub/x.JPG" [7])).written
          = [] ++ [p]))
    ∧ (([] : List String).contains "._x.jpg" = false
      ∧ ¬ ∃ p, (processEntry "/d" ⟨[], [], ⟨[], []⟩⟩ (ZipEntry.mk "._x.jpg" [7])).written
          = [] ++ [p]) :=
  ⟨⟨by decide,
      (C6_entry_filter_iff "/d" ⟨[], [], ⟨[], []⟩⟩ (ZipEntry.mk "sub/x.JPG" [7])
        (by decide)).2 (by decide)⟩,
    ⟨by decide,
      fun hex =>
        by
          have h := (C6_entry_filter_iff "/d" ⟨[], [], ⟨[], []⟩⟩ (ZipEntry.mk "._x.jpg" [7])
            (by decide)).1 hex
          revert h
          decide⟩⟩

/-- C8: the list of locations the extractor returns has no duplicate
locations and preserves the order of first occurrence: it is exactly the raw
list of successfully written locations, which is itself duplicate-free, so
the defensive Set-based final pass is the identity. -/
theorem C8_extractor_locations_nodup (extractTo : String) (entries : List ZipEntry) (fs0 : FS) :
    ∃ files fs1, extractZip (some entries) extractTo fs0 = Except.ok (files, fs1)
      ∧ files.Nodup ∧ files = (extractRun extractTo entries fs0).written := by
  have hmain := runFrom_main extractTo (entries.map ZipEntry.content) entries ⟨[], [], fs0⟩
    (fun e he => List.mem_map_of_mem _ he) List.nodup_nil (by intro p hp; simp at hp)
  obtain ⟨hnd, _⟩ := hmain
  refine ⟨(extractRun extractTo entries fs0).written, (extractRun extractTo entries fs0).fs,
    ?_, ?_, rfl⟩
  · simp only [extractZip]
    rw [show extractRun extractTo entries fs0 = runFrom extractTo ⟨[], [], fs0⟩ entries from rfl]
    rw [dedupFirst_eq_self hnd]
  · exact hnd

/-- C4: colliding leaf names get distinct on-disk locations.  First part:
from a destination directory that is initially free, two kept entries with
different names but the same leaf are both extracted, the first at the plain
joined location, the second at the location with the _1 suffix inserted
before the extension, and the two locations differ.  Second part: in any
state where a kept entry's plain candidate location is already occupied, the
entry is written at candidate number k greater than zero chosen as the first
free location (every candidate below k is occupied). -/
theorem C4_collision_resolution :
    (∀ (extractTo : String) (fs0 : FS) (e1 e2 : ZipEntry),
      (∀ p, strStartsWith p (extractTo ++ "/") = true → fs0.fileExists p = false) →
      e1.fileName ≠ e2.fileName →
      basename e2.fileName = basename e1.fileName →
      keepName e1.fileName = true → keepName e2.fileName = true →
      (extractRun extractTo [e1, e2] fs0).written
        = [extractTo ++ "/" ++ basename e1.fileName,
           extractTo ++ "/" ++ stripExt (basename e1.fileName) ++ "_" ++ decStr 1
             ++ extname (basename e1.fileName)]
        ∧ extractTo ++ "/" ++ basename e1.fileName
            ≠ extractTo ++ "/" ++ stripExt (basename e1.fileName) ++ "_" ++ decStr 1
                ++ extname (basename e1.fileName))
    ∧ (∀ (extractTo : String) (st : ExtrState) (e : ZipEntry),
      st.processed.contains e.fileName = false →
      keepName e.fileName = true →
      st.fs.fileExists (extractTo ++ "/" ++ basename e.fileName) = true →
      ∃ k, 1 ≤ k
        ∧ (processEntry extractTo st e).written
            = st.written ++ [candidateAt extractTo (basename e.fileName) k]
        ∧ st.fs.fileExists (candidateAt extractTo (basename e.fileName) k) = false
        ∧ ∀ i, i < k → st.fs.fileExists (candidateAt extractTo (basename e.fileName) i) = true) := by
  constructor
  · intro extractTo fs0 e1 e2 hfree hne hleaf hk1 hk2
    have hc1 : (([] : List String).contains e1.fileName) = false := rfl
    have hres1 : resolveTarget fs0 extractTo (basename e1.fileName)
        = candidateAt extractTo (basename e1.fileName) 0 := by
      obtain ⟨k, hkfree, hkmin, hkeq⟩ := resolveTarget_spec fs0 extractTo (basename e1.fileName)
      match k, hkfree, hkmin, hkeq with
      | 0, _, _, hkeq => exact hkeq
      | k + 1, _, hkmin, _ =>
        exfalso
        have h0 := hkmin 0 (Nat.succ_pos k)
        rw [hfree _ (candidateAt_startsWith extractTo (basename e1.fileName) 0)] at h0
        exact Bool.false_ne_true h0
    have hstep1 : processEntry extractTo ⟨[], [], fs0⟩ e1 =
        { processed := [e1.fileName],
          written := [candidateAt extractTo (basename e1.fileName) 0],
          fs := fs0.writeFile (candidateAt extractTo (basename e1.fileName) 0) e1.content } := by
      rw [processEntry_kept extractTo ⟨[], [], fs0⟩ e1 hc1 hk1]
      rw [hres1]
      rfl
    have hc2 : (([e1.fileName] : List String).contains e2.fileName) = false := by
      rw [contains_eq_false_iff]
      intro hmem
      rw [List.mem_singleton] at hmem
      exact hne (hmem.symm)
    have hdistinct : candidateAt extractTo (basename e1.fileName) 0
        ≠ candidateAt extractTo (basename e1.fileName) 1 := by
      intro hcand
      exact Nat.zero_ne_one (candidateAt_inj extractTo (basename e1.fileName) hcand)
    have hres2 : resolveTarget
        (fs0.writeFile (candidateAt extractTo (basename e1.fileName) 0) e1.content)
        extractTo (basename e2.fileName)
        = candidateAt extractTo (basename e1.fileName) 1 := by
      rw [hleaf]
      obtain ⟨k, hkfree, hkmin, hkeq⟩ := resolveTarget_spec
        (fs0.writeFile (candidateAt extractTo (basename e1.fileName) 0) e1.content)
        extractTo (basename e1.fileName)
      have hex0 : (fs0.writeFile (candidateAt extractTo (basename e1.fileName) 0)
          e1.content).fileExists (candidateAt extractTo (basename e1.fileName) 0) = true :=
        fileExists_write_self fs0 _ e1.content
      have hfree1 : (fs0.writeFile (candidateAt extractTo (basename e1.fileName) 0)
          e1.content).fileExists (candidateAt extractTo (basename e1.fileName) 1) = false := by
        rw [fileExists_eq_readFile,
          readFile_write_ne fs0 _ e1.content (Ne.symm hdistinct),
          ← fileExists_eq_readFile]
        exact hfree _ (candidateAt_startsWith extractTo (basename e1.fileName) 1)
      match k, hkfree, hkmin, hkeq with
      | 0, hkfree, _, _ =>
        exfalso
        rw [hex0] at hkfree
        simp at hkfree
      | 1, _, _, hkeq => exact hkeq
      | k + 2, _, hkmin, _ =>
        exfalso
        have h1 := hkmin 1 (by omega)
        rw [hfree1] at h1
        exact Bool.false_ne_true h1
    have hstep2 := processEntry_kept extractTo
      { processed := [e1.fileName],
        written := [candidateAt extractTo (basename e1.fileName) 0],
        fs := fs0.writeFile (candidateAt extractTo (basename e1.fileName) 0) e1.content }
      e2 hc2 hk2
    constructor
    · show (runFrom extractTo ⟨[], [], fs0⟩ [e1, e2]).written = _
      rw [runFrom_cons, runFrom_cons, runFrom_nil, hstep1, hstep2, hres2]
      rfl
    · intro hcand
      apply hdistinct
      have h0 : candidateAt extractTo (basename e1.fileName) 0
          = extractTo ++ "/" ++ basename e1.fileName := rfl
      have h1 : candidateAt extractTo (basename e1.fileName) 1
          = extractTo ++ "/" ++ stripExt (basename e1.fileName) ++ "_" ++ decStr 1
              ++ extname (basename e1.fileName) := rfl
      rw [h0, h1]
      exact hcand
  · intro extractTo st e hc hk hocc
    obtain ⟨hw, _⟩ := processEntry_kept_fields extractTo st e hc hk
    obtain ⟨k, hkfree, hkmin, hkeq⟩ := resolveTarget_spec st.fs extractTo (basename e.fileName)
    refine ⟨k, ?_, ?_, hkfree, hkmin⟩
    · match k, hkfree with
      | 0, hkfree =>
        exfalso
        have : candidateAt extractTo (basename e.fileName) 0
            = extractTo ++ "/" ++ basename e.fileName := rfl
        rw [this, hocc] at hkfree
        exact Bool.false_ne_true hkfree.symm
      | k + 1, _ => omega
    · rw [hw, hkeq]

/-! ### The URL mapping -/

theorem relativeTo_append (root rest : String) : relativeTo root (root ++ "/" ++ rest) = rest := by
  unfold relativeTo
  rw [if_pos (strStartsWith_append (root ++ "/") rest)]
  have hdata : (root ++ "/" ++ rest).data = (root ++ "/").data ++ rest.data := by
    rw [String.data_append]
  rw [hdata, List.drop_left, mk_data_eq]

theorem replaceBsl_append (a b : String) : replaceBsl (a ++ b) = replaceBsl a ++ replaceBsl b := by
  apply data_inj
  simp [replaceBsl, String.data_append]

theorem replaceBsl_of_no_bsl {s : String} (h : ('\\' : Char) ∉ s.data) : replaceBsl s = s := by
  apply data_inj
  show s.data.map _ = s.data
  have : ∀ c ∈ s.data, (if c = '\\' then '/' else c) = id c := by
    intro c hc
    have hcne : c ≠ '\\' := fun hcc => h (hcc ▸ hc)
    simp [hcne]
  rw [List.map_congr_left this, List.map_id]

theorem decStr_no_bsl (n : Nat) : ('\\' : Char) ∉ (decStr n).data := by
  intro h
  have := decStr_chars h
  revert this
  decide

theorem decStr_no_slash (n : Nat) : ('/' : Char) ∉ (decStr n).data := by
  intro h
  have := decStr_chars h
  revert this
  decide

theorem extractLoc_eq (ts : Nat) (b : String) :
    extractDirOf ts ++ "/" ++ b
      = UPLOAD_DIR ++ "/" ++ ("extract_" ++ decStr ts ++ ("/" ++ b)) := by
  apply data_inj
  have h1 : ("/extract_" : String).data = ("/" : String).data ++ ("extract_" : String).data := by
    decide
  simp [extractDirOf, UPLOAD_DIR, String.data_append, h1]

theorem startsSlash_extract_false (X : String) :
    strStartsWith ("extract_" ++ X) "/" = false := by
  unfold strStartsWith
  rw [String.data_append]
  rfl

theorem toUrl_shaped (ts : Nat) (b : String) :
    toUrl (extractDirOf ts ++ "/" ++ b)
      = "/api/images/" ++ ("extract_" ++ decStr ts ++ ("/" ++ replaceBsl b)) := by
  unfold toUrl
  simp only []
  rw [extractLoc_eq ts b, relativeTo_append]
  have hrb : replaceBsl ("extract_" ++ decStr ts ++ ("/" ++ b))
      = "extract_" ++ (decStr ts ++ ("/" ++ replaceBsl b)) := by
    rw [replaceBsl_append, replaceBsl_append, replaceBsl_append]
    rw [replaceBsl_of_no_bsl (s := "extract_") (by decide)]
    rw [replaceBsl_of_no_bsl (s := "/") (by decide)]
    rw [replaceBsl_of_no_bsl (s := decStr ts) (decStr_no_bsl ts)]
    rw [str_append_assoc]
  rw [hrb]
  rw [if_neg (by rw [startsSlash_extract_false]; exact Bool.false_ne_true)]
  rw [str_append_assoc]

theorem map_bslrep_inj : ∀ (l1 l2 : List Char), ('/' : Char) ∉ l1 → ('/' : Char) ∉ l2 →
    l1.map (fun c => if c = '\\' then '/' else c) = l2.map (fun c => if c = '\\' then '/' else c) →
    l1 = l2 := by
  intro l1
  induction l1 with
  | nil =>
    intro l2 _ _ hd
    cases l2 with
    | nil => rfl
    | cons y ys => simp at hd
  | cons x xs ih =>
    intro l2 h1 h2 hd
    cases l2 with
    | nil => simp at hd
    | cons y ys =>
      simp only [List.map_cons, List.cons.injEq] at hd
      obtain ⟨hxy, htail⟩ := hd
      have hxe : x ≠ '/' := fun h => h1 (h ▸ List.mem_cons_self x xs)
      have hye : y ≠ '/' := fun h => h2 (h ▸ List.mem_cons_self y ys)
      have hx : x = y := by
        by_cases hxb : x = '\\' <;> by_cases hyb : y = '\\'
        · rw [hxb, hyb]
        · rw [if_pos hxb, if_neg hyb] at hxy
          exact absurd hxy.symm hye
        · rw [if_neg hxb, if_pos hyb] at hxy
          exact absurd hxy hxe
        · rw [if_neg hxb, if_neg hyb] at hxy
          exact hxy
      rw [hx, ih ys (fun hm => h1 (List.mem_cons_of_mem x hm))
        (fun hm => h2 (List.mem_cons_of_mem y hm)) htail]

theorem replaceBsl_inj_on_no_slash {b1 b2 : String}
    (h1 : ('/' : Char) ∉ b1.data) (h2 : ('/' : Char) ∉ b2.data)
    (heq : replaceBsl b1 = replaceBsl b2) : b1 = b2 :=
  data_inj (map_bslrep_inj b1.data b2.data h1 h2 (mk_inj heq))

/-! ### The success path of the upload handler -/

theorem postRun_written_nodup (entries : List ZipEntry) (ts : Nat) (fs0 : FS) :
    (postRun entries ts fs0).written.Nodup :=
  (runFrom_main (extractDirOf ts) (entries.map ZipEntry.content) entries
    ⟨[], [], stagedFS fs0 ts⟩ (fun _ he => List.mem_map_of_mem _ he) List.nodup_nil
    (by intro p hp; simp at hp)).1

theorem postRun_written_readable (entries : List ZipEntry) (ts : Nat) (fs0 : FS) :
    ∀ p ∈ (postRun entries ts fs0).written,
      ∃ b, (postRun entries ts fs0).fs.readFile p = some b ∧ b ∈ entries.map ZipEntry.content :=
  (runFrom_main (extractDirOf ts) (entries.map ZipEntry.content) entries
    ⟨[], [], stagedFS fs0 ts⟩ (fun _ he => List.mem_map_of_mem _ he) List.nodup_nil
    (by intro p hp; simp at hp)).2

theorem postRun_written_length (entries : List ZipEntry) (ts : Nat) (fs0 : FS) :
    (postRun entries ts fs0).written.length = countQ [] entries := by
  show (runFrom (extractDirOf ts) ⟨[], [], stagedFS fs0 ts⟩ entries).written.length = _
  rw [runFrom_count]
  simp

theorem postRun_written_shape (entries : List ZipEntry) (ts : Nat) (fs0 : FS) :
    ∀ p ∈ (postRun entries ts fs0).written, ∃ b : String,
      p = extractDirOf ts ++ "/" ++ b ∧ 4 ≤ b.data.length
        ∧ ∀ c ∈ b.data, c ≠ '/' ∧ c ∉ ([] : List Char) :=
  runFrom_shape (extractDirOf ts) [] (by simp) (by simp) (by simp) entries
    ⟨[], [], stagedFS fs0 ts⟩ (by intro e _ c _; simp) (by intro p hp; simp at hp)

theorem sorted_postRun_facts (entries : List ZipEntry) (ts : Nat) (fs0 : FS) :
    (List.insertionSort strLe (postRun entries ts fs0).written).Nodup
      ∧ (List.insertionSort strLe (postRun entries ts fs0).written).length
          = countQ [] entries
      ∧ ((List.insertionSort strLe (postRun entries ts fs0).written).map toUrl).Nodup := by
  have hnd := postRun_written_nodup entries ts fs0
  have hperm := List.perm_insertionSort strLe (postRun entries ts fs0).written
  have hsortnd : (List.insertionSort strLe (postRun entries ts fs0).written).Nodup :=
    hperm.nodup_iff.2 hnd
  have hshape := postRun_written_shape entries ts fs0
  refine ⟨hsortnd, ?_, ?_⟩
  · rw [hperm.length_eq, postRun_written_length]
  · apply List.Nodup.map_on ?_ hsortnd
    intro x hx y hy hxy
    obtain ⟨bx, hxe, _, hbx⟩ := hshape x (hperm.mem_iff.1 hx)
    obtain ⟨bz, hye, _, hbz⟩ := hshape y (hperm.mem_iff.1 hy)
    subst hxe
    subst hye
    rw [toUrl_shaped, toUrl_shaped] at hxy
    have h2 := str_append_cancel_left hxy
    have h3 := str_append_cancel_left h2
    have h4 := str_append_cancel_left h3
    have hb : bx = bz := replaceBsl_inj_on_no_slash
      (fun hm => (hbx '/' hm).1 rfl) (fun hm => (hbz '/' hm).1 rfl) h4
    rw [hb]

theorem uploadPOST_ok (fileName : String) (entries : List ZipEntry) (ts : Nat) (fs0 : FS)
    (hzip : strEndsWith fileName ".zip" = true)
    (hlow : 1 ≤ countQ [] entries) (hhigh : countQ [] entries ≤ 100) :
    uploadPOST fileName (some entries) ts fs0
      = (UploadOutcome.ok
          ((List.insertionSort strLe (postRun entries ts fs0).written).map toUrl)
          (extractDirOf ts),
         (postRun entries ts fs0).fs.removeAll (tempZipPathOf ts)) := by
  have hnd := postRun_written_nodup entries ts fs0
  have hcount := postRun_written_length entries ts fs0
  have hperm := List.perm_insertionSort strLe (postRun entries ts fs0).written
  obtain ⟨hsortnd, hsortlen, hmapnd⟩ := sorted_postRun_facts entries ts fs0
  have hexists : ∀ p ∈ (postRun entries ts fs0).written,
      (postRun entries ts fs0).fs.fileExists p = true := by
    intro p hp
    obtain ⟨b, hread, _⟩ := postRun_written_readable entries ts fs0 p hp
    rw [fileExists_eq_readFile, hread]
    rfl
  rw [uploadPOST, if_neg (by rw [hzip]; simp)]
  simp only []
  rw [show (fs0.writeFile (tempZipPathOf ts) []).mkdir (extractDirOf ts) = stagedFS fs0 ts
    from rfl]
  simp only [extractZip]
  rw [show extractRun (extractDirOf ts) entries (stagedFS fs0 ts) = postRun entries ts fs0
    from rfl]
  rw [dedupFirst_eq_self hnd]
  rw [if_neg (by omega)]
  rw [if_neg (by omega)]
  rw [dedupFirst_eq_self hsortnd]
  rw [List.filter_eq_self.2 (by
    intro a ha
    exact hexists a (hperm.mem_iff.1 ha))]
  simp only [dedupFirst_eq_self hmapnd]
  rw [if_neg (by rw [List.length_map]; omega)]

theorem removeAll_fileExists_mono (fs : FS) (q p : String)
    (h : (fs.removeAll q).fileExists p = true) : fs.fileExists p = true := by
  by_cases hc : (p == q || strStartsWith p (q ++ "/")) = true
  · rw [removeAll_fileExists_of_under fs q p hc] at h
    exact absurd h Bool.false_ne_true
  · rw [removeAll_fileExists_of_not fs q p (bool_eq_false hc)] at h
    exact h

theorem removeAll_pair_clean (fs : FS) (d t : String) :
    ((fs.removeAll d).removeAll t).fileExists t = false
    ∧ d ∉ ((fs.removeAll d).removeAll t).dirs
    ∧ ∀ p, (p == d || strStartsWith p (d ++ "/")) = true →
        ((fs.removeAll d).removeAll t).fileExists p = false := by
  refine ⟨?_, ?_, ?_⟩
  · exact removeAll_fileExists_of_under _ t t (by simp)
  · intro hmem
    exact removeAll_dirs_not_mem fs d d (by simp)
      (removeAll_dirs_subset (fs.removeAll d) t d hmem)
  · intro p hp
    apply bool_eq_false
    intro htrue
    have h2 := removeAll_fileExists_mono _ t p htrue
    rw [removeAll_fileExists_of_under fs d p hp] at h2
    exact Bool.false_ne_true h2

/-- C2: for a well-named upload whose container holds N qualifying image
entries with 1 ≤ N ≤ 100, the handler succeeds and returns exactly N
addresses, pairwise distinct, derived from the extracted locations and
listed in lexicographic order of the locations taken relative to the
storage root. -/
theorem C2_ingest_count_unique_sorted (fileName : String) (entries : List ZipEntry)
    (ts : Nat) (fs0 : FS)
    (hzip : strEndsWith fileName ".zip" = true)
    (hlow : 1 ≤ countQ [] entries) (hhigh : countQ [] entries ≤ 100) :
    ∃ (locs : List String) (fs1 : FS),
      uploadPOST fileName (some entries) ts fs0
        = (UploadOutcome.ok (locs.map toUrl) (extractDirOf ts), fs1)
      ∧ (locs.map toUrl).length = countQ [] entries
      ∧ (locs.map toUrl).Nodup
      ∧ locs.Pairwise (fun a b => strLe (relativeTo UPLOAD_DIR a) (relativeTo UPLOAD_DIR b)) := by
  obtain ⟨hsortnd, hsortlen, hmapnd⟩ := sorted_postRun_facts entries ts fs0
  have hperm := List.perm_insertionSort strLe (postRun entries ts fs0).written
  have hshape := postRun_written_shape entries ts fs0
  refine ⟨List.insertionSort strLe (postRun entries ts fs0).written,
    (postRun entries ts fs0).fs.removeAll (tempZipPathOf ts),
    uploadPOST_ok fileName entries ts fs0 hzip hlow hhigh, ?_, hmapnd, ?_⟩
  · rw [List.length_map]
    exact hsortlen
  · haveI : IsTotal String strLe := ⟨strLe_total_thm⟩
    haveI : IsTrans String strLe := ⟨strLe_trans_thm⟩
    have hsorted := List.sorted_insertionSort strLe (postRun entries ts fs0).written
    refine List.Pairwise.imp_of_mem ?_ hsorted
    intro a b ha hb hab
    obtain ⟨ba, hae, _, _⟩ := hshape a (hperm.mem_iff.1 ha)
    obtain ⟨bb, hbe, _, _⟩ := hshape b (hperm.mem_iff.1 hb)
    subst hae
    subst hbe
    rw [extractLoc_eq ts ba] at hab ⊢
    rw [extractLoc_eq ts bb] at hab ⊢
    rw [relativeTo_append, relativeTo_append]
    exact (strLe_append_iff (UPLOAD_DIR ++ "/") _ _).1 hab

theorem C2_ingest_count_unique_sorted_witness :
    (strEndsWith "a.zip" ".zip" = true ∧ 1 ≤ countQ [] [ZipEntry.mk "a.jpg" [1]]
      ∧ countQ [] [ZipEntry.mk "a.jpg" [1]] ≤ 100)
    ∧ ∃ (locs : List String) (fs1 : FS),
      uploadPOST "a.zip" (some [ZipEntry.mk "a.jpg" [1]]) 0 ⟨[], []⟩
        = (UploadOutcome.ok (locs.map toUrl) (extractDirOf 0), fs1)
      ∧ (locs.map toUrl).length = countQ [] [ZipEntry.mk "a.jpg" [1]]
      ∧ (locs.map toUrl).Nodup
      ∧ locs.Pairwise (fun a b => strLe (relativeTo UPLOAD_DIR a) (relativeTo UPLOAD_DIR b)) :=
  ⟨⟨by decide, by decide, by decide⟩,
    C2_ingest_count_unique_sorted "a.zip" [ZipEntry.mk "a.jpg" [1]] 0 ⟨[], []⟩
      (by decide) (by decide) (by decide)⟩

/-- C9: a well-named upload whose container has zero qualifying entries
fails with the empty-container error, and both the session directory (with
everything below it) and the temporary staging file are deleted before the
error is returned. -/
theorem C9_empty_container_cleanup (fileName : String) (entries : List ZipEntry)
    (ts : Nat) (fs0 : FS)
    (hzip : strEndsWith fileName ".zip" = true)
    (hzero : countQ [] entries = 0) :
    ∃ fs1,
      uploadPOST fileName (some entries) ts fs0
        = (UploadOutcome.clientError "No images found in ZIP file", fs1)
      ∧ fs1.fileExists (tempZipPathOf ts) = false
      ∧ extractDirOf ts ∉ fs1.dirs
      ∧ ∀ p, (p == extractDirOf ts || strStartsWith p (extractDirOf ts ++ "/")) = true →
          fs1.fileExists p = false := by
  have hempty : (postRun entries ts fs0).written = [] := by
    rw [← List.length_eq_zero, postRun_written_length]
    exact hzero
  refine ⟨((postRun entries ts fs0).fs.removeAll (extractDirOf ts)).removeAll (tempZipPathOf ts),
    ?_, ?_, ?_, ?_⟩
  · rw [uploadPOST, if_neg (by rw [hzip]; simp)]
    simp only []
    rw [show (fs0.writeFile (tempZipPathOf ts) []).mkdir (extractDirOf ts) = stagedFS fs0 ts
      from rfl]
    simp only [extractZip]
    rw [show extractRun (extractDirOf ts) entries (stagedFS fs0 ts) = postRun entries ts fs0
      from rfl]
    rw [hempty]
    rw [if_pos (by rfl)]
  · exact (removeAll_pair_clean _ _ _).1
  · exact (removeAll_pair_clean _ _ _).2.1
  · exact (removeAll_pair_clean _ _ _).2.2

theorem C9_empty_container_cleanup_witness :
    (strEndsWith "a.zip" ".zip" = true ∧ countQ [] [ZipEntry.mk "readme.txt" [5]] = 0)
    ∧ ∃ fs1,
      uploadPOST "a.zip" (some [ZipEntry.mk "readme.txt" [5]]) 0 ⟨[], []⟩
        = (UploadOutcome.clientError "No images found in ZIP file", fs1)
      ∧ fs1.fileExists (tempZipPathOf 0) = false
      ∧ extractDirOf 0 ∉ fs1.dirs
      ∧ ∀ p, (p == extractDirOf 0 || strStartsWith p (extractDirOf 0 ++ "/")) = true →
          fs1.fileExists p = false :=
  ⟨⟨by decide, by decide⟩,
    C9_empty_container_cleanup "a.zip" [ZipEntry.mk "readme.txt" [5]] 0 ⟨[], []⟩
      (by decide) (by decide)⟩

/-- C3 counterexample: on a corrupt container (the extractor rejects), the
handler's catch-all path surfaces the error while the staging file it wrote
and the session directory it created are both left behind, so the claim that
every fatal ingestion error is preceded by deletion of the session directory
and staging file is false at this input. -/
theorem C3_no_cleanup_on_corrupt_counterexample :
    (uploadPOST "a.zip" none 0 ⟨[], []⟩).1 = UploadOutcome.serverError
    ∧ (uploadPOST "a.zip" none 0 ⟨[], []⟩).2.fileExists (tempZipPathOf 0) = true
    ∧ extractDirOf 0 ∈ (uploadPOST "a.zip" none 0 ⟨[], []⟩).2.dirs := by
  decide

/-- C3 amended: cleanup of the session directory and the staging file
happens exactly on the two error branches that perform it — the
empty-container error and the extractor-level over-limit error; when the
extraction itself fails (for instance a corrupt container), the error is
surfaced through the catch-all path with the staging file and the session
directory left behind. -/
theorem C3_cleanup_amended (fileName : String) (ts : Nat) (fs0 : FS)
    (hzip : strEndsWith fileName ".zip" = true) :
    ((uploadPOST fileName none ts fs0).1 = UploadOutcome.serverError
      ∧ (uploadPOST fileName none ts fs0).2.fileExists (tempZipPathOf ts) = true
      ∧ extractDirOf ts ∈ (uploadPOST fileName none ts fs0).2.dirs)
    ∧ (∀ (entries : List ZipEntry) (r : UploadOutcome) (fs1 : FS),
        uploadPOST fileName (some entries) ts fs0 = (r, fs1) →
        (r = UploadOutcome.clientError "No images found in ZIP file"
          ∨ r = UploadOutcome.clientError "ZIP file contains more than 100 images") →
        fs1.fileExists (tempZipPathOf ts) = false
          ∧ extractDirOf ts ∉ fs1.dirs
          ∧ ∀ p, (p == extractDirOf ts || strStartsWith p (extractDirOf ts ++ "/")) = true →
              fs1.fileExists p = false) := by
  constructor
  · rw [uploadPOST, if_neg (by rw [hzip]; simp)]
    simp only [extractZip]
    refine ⟨trivial, ?_, ?_⟩
    · show ((fs0.writeFile (tempZipPathOf ts) []).mkdir (extractDirOf ts)).fileExists
        (tempZipPathOf ts) = true
      exact fileExists_write_self fs0 (tempZipPathOf ts) []
    · show extractDirOf ts ∈ ((fs0.writeFile (tempZipPathOf ts) []).mkdir (extractDirOf ts)).dirs
      exact List.mem_cons_self _ _
  · intro entries r fs1 hrun hmsg
    rw [uploadPOST, if_neg (by rw [hzip]; simp)] at hrun
    dsimp only [] at hrun
    rw [show (fs0.writeFile (tempZipPathOf ts) []).mkdir (extractDirOf ts) = stagedFS fs0 ts
      from rfl] at hrun
    simp only [extractZip] at hrun
    rw [show extractRun (extractDirOf ts) entries (stagedFS fs0 ts) = postRun entries ts fs0
      from rfl] at hrun
    by_cases h0 : (dedupFirst (postRun entries ts fs0).written).length = 0
    · rw [if_pos h0] at hrun
      have hfs : fs1 = ((postRun entries ts fs0).fs.removeAll (extractDirOf ts)).removeAll
          (tempZipPathOf ts) := (Prod.mk.injEq _ _ _ _ ▸ hrun).2.symm
      subst hfs
      exact ⟨(removeAll_pair_clean _ _ _).1, (removeAll_pair_clean _ _ _).2.1,
        (removeAll_pair_clean _ _ _).2.2⟩
    · rw [if_neg h0] at hrun
      by_cases h100 : (dedupFirst (postRun entries ts fs0).written).length > 100
      · rw [if_pos h100] at hrun
        have hfs : fs1 = ((postRun entries ts fs0).fs.removeAll (extractDirOf ts)).removeAll
            (tempZipPathOf ts) := (Prod.mk.injEq _ _ _ _ ▸ hrun).2.symm
        subst hfs
        exact ⟨(removeAll_pair_clean _ _ _).1, (removeAll_pair_clean _ _ _).2.1,
          (removeAll_pair_clean _ _ _).2.2⟩
      · rw [if_neg h100] at hrun
        exfalso
        by_cases hfin : (dedupFirst (dedupFirst
            (((dedupFirst (List.insertionSort strLe (dedupFirst
              (postRun entries ts fs0).written))).filter
                (postRun entries ts fs0).fs.fileExists).map toUrl))).length > 100
        · rw [if_pos hfin] at hrun
          have hr : r = UploadOutcome.clientError "Too many images" :=
            ((Prod.mk.injEq _ _ _ _ ▸ hrun).1).symm
          subst hr
          rcases hmsg with h | h
          · exact absurd (UploadOutcome.clientError.inj h) (by decide)
          · exact absurd (UploadOutcome.clientError.inj h) (by decide)
        · rw [if_neg hfin] at hrun
          have hr : r = UploadOutcome.ok _ _ := ((Prod.mk.injEq _ _ _ _ ▸ hrun).1).symm
          subst hr
          rcases hmsg with h | h
          · exact UploadOutcome.noConfusion h
          · exact UploadOutcome.noConfusion h

theorem C3_cleanup_amended_witness :
    strEndsWith "a.zip" ".zip" = true
    ∧ ((uploadPOST "a.zip" none 7 ⟨[], []⟩).1 = UploadOutcome.serverError
        ∧ (uploadPOST "a.zip" none 7 ⟨[], []⟩).2.fileExists (tempZipPathOf 7) = true
        ∧ extractDirOf 7 ∈ (uploadPOST "a.zip" none 7 ⟨[], []⟩).2.dirs) :=
  ⟨by decide, (C3_cleanup_amended "a.zip" 7 ⟨[], []⟩ (by decide)).1⟩

/-- C10: the second over-limit check of the upload handler is unreachable:
after the first check bounds the extracted list by 100, every later stage
(sorting, the deduplication passes, the existence filter and the URL
mapping) preserves or shrinks the list, so the handler never returns the
second over-limit error message. -/
theorem C10_second_limit_unreachable (fileName : String) (zip : Option (List ZipEntry))
    (ts : Nat) (fs0 : FS) :
    (uploadPOST fileName zip ts fs0).1 ≠ UploadOutcome.clientError "Too many images" := by
  rw [uploadPOST]
  by_cases hz : strEndsWith fileName ".zip" = true
  · rw [if_neg (by rw [hz]; simp)]
    simp only []
    cases zip with
    | none =>
      simp only [extractZip]
      intro h
      exact UploadOutcome.noConfusion (show UploadOutcome.serverError
        = UploadOutcome.clientError "Too many images" from h)
    | some entries =>
      simp only [extractZip]
      by_cases h0 : (dedupFirst (extractRun (extractDirOf ts) entries
          ((fs0.writeFile (tempZipPathOf ts) []).mkdir (extractDirOf ts))).written).length = 0
      · rw [if_pos h0]
        intro h
        exact absurd (UploadOutcome.clientError.inj
          (show UploadOutcome.clientError "No images found in ZIP file"
            = UploadOutcome.clientError "Too many images" from h)) (by decide)
      · rw [if_neg h0]
        by_cases h100 : (dedupFirst (extractRun (extractDirOf ts) entries
            ((fs0.writeFile (tempZipPathOf ts) []).mkdir (extractDirOf ts))).written).length > 100
        · rw [if_pos h100]
          intro h
          exact absurd (UploadOutcome.clientError.inj
            (show UploadOutcome.clientError "ZIP file contains more than 100 images"
              = UploadOutcome.clientError "Too many images" from h)) (by decide)
        · rw [if_neg h100]
          rw [if_neg ?final]
          case final =>
            apply not_lt.2
            apply le_trans (dedupFirst_length_le _)
            apply le_trans (dedupFirst_length_le _)
            rw [List.length_map]
            apply le_trans (List.length_filter_le _ _)
            apply le_trans (dedupFirst_length_le _)
            rw [(List.perm_insertionSort strLe _).length_eq]
            omega
          intro h
          exact UploadOutcome.noConfusion (show UploadOutcome.ok _ _
            = UploadOutcome.clientError "Too many images" from h)
  · rw [if_pos (by rw [bool_eq_false hz]; rfl)]
    intro h
    exact absurd (UploadOutcome.clientError.inj
      (show UploadOutcome.clientError "File must be a ZIP file"
        = UploadOutcome.clientError "Too many images" from h)) (by decide)

/-- C1: the serving route's containment check is a raw string-prefix test on
the canonicalized path, so a request whose segments climb out of the storage
root into a sibling directory whose name extends the root's name passes the
check and is served with status 200 instead of failing with the traversal
error, although the canonicalized location is not a descendant of the
storage root; the claimed invariant fails at this input. -/
theorem C1_traversal_prefix_bypass :
    resolveAbs (UPLOAD_DIR :: ["..", "uploadsEvil", "x.jpg"]) = "/app/uploadsEvil/x.jpg"
    ∧ ¬ isDescendantOf "/app/uploadsEvil/x.jpg" UPLOAD_DIR
    ∧ strStartsWith "/app/uploadsEvil/x.jpg" UPLOAD_DIR = true
    ∧ imagesGET ⟨[("/app/uploadsEvil/x.jpg", [9, 9])], []⟩ ["..", "uploadsEvil", "x.jpg"]
        = ServeOutcome.ok [9, 9] "image/jpeg" := by
  refine ⟨by decide, ?_, by decide, by decide⟩
  intro h
  rcases h with h | h
  · exact absurd h (by decide)
  · exact absurd h (by decide)

theorem C4_collision_resolution_witness :
    (extractRun "/d" [ZipEntry.mk "a/name.jpg" [1], ZipEntry.mk "b/name.jpg" [2]] ⟨[], []⟩).written
      = ["/d/name.jpg", "/d/name_1.jpg"]
    ∧ "/d/name.jpg" ≠ "/d/name_1.jpg" := by
  have h := (C4_collision_resolution.1 "/d" ⟨[], []⟩ (ZipEntry.mk "a/name.jpg" [1])
    (ZipEntry.mk "b/name.jpg" [2]) (fun p _ => rfl) (by decide) (by decide)
    (by decide) (by decide))
  constructor
  · rw [h.1]
    decide
  · decide

/-! ### Round-trip infrastructure: splitting and resolving served addresses -/

theorem splitSlash_cons_slash (cs : List Char) : splitSlash ('/' :: cs) = [] :: splitSlash cs := by
  cases h : splitSlash cs with
  | nil => exact absurd h (splitSlash_ne_nil cs)
  | cons g gs =>
    rw [splitSlash, h]
    simp

theorem splitSlash_append_sep : ∀ (a r : List Char), ('/' : Char) ∉ a →
    splitSlash (a ++ '/' :: r) = a :: splitSlash r := by
  intro a
  induction a with
  | nil => intro r _; exact splitSlash_cons_slash r
  | cons x xs ih =>
    intro r h
    have hx : x ≠ '/' := fun hc => h (hc ▸ List.mem_cons_self x xs)
    rw [List.cons_append, splitSlash, ih r (fun hm => h (List.mem_cons_of_mem x hm))]
    simp [hx]

theorem splitSegs_route (E b : String) (hE : ('/' : Char) ∉ E.data)
    (hb : ('/' : Char) ∉ b.data) :
    splitSegs ("/api/images/" ++ (E ++ ("/" ++ b))) = ["", "api", "images", E, b] := by
  have hdata : ("/api/images/" ++ (E ++ ("/" ++ b))).data
      = '/' :: (("api" : String).data ++ ('/' :: (("images" : String).data
          ++ ('/' :: (E.data ++ ('/' :: b.data)))))) := by
    have h1 : ("/api/images/" : String).data
        = ['/', 'a', 'p', 'i', '/', 'i', 'm', 'a', 'g', 'e', 's', '/'] := by decide
    have h2 : ("api" : String).data = ['a', 'p', 'i'] := by decide
    have h3 : ("images" : String).data = ['i', 'm', 'a', 'g', 'e', 's'] := by decide
    have h4 : ("/" : String).data = ['/'] := by decide
    simp [String.data_append, h1, h2, h3, h4]
  have h0 : String.mk ([] : List Char) = "" := by decide
  rw [splitSegs, hdata, splitSlash_cons_slash,
    splitSlash_append_sep _ _ (by decide),
    splitSlash_append_sep _ _ (by decide),
    splitSlash_append_sep _ _ hE,
    splitSlash_no_slash _ hb]
  simp [mk_data_eq, h0]

theorem ne_special_of_four {b : String} (h : 4 ≤ b.data.length) :
    b ≠ "" ∧ b ≠ "." ∧ b ≠ ".." := by
  refine ⟨?_, ?_, ?_⟩ <;> intro he <;> rw [he] at h <;> revert h <;> decide

theorem extract_seg_no_slash (ts : Nat) :
    ('/' : Char) ∉ ("extract_" ++ decStr ts).data := by
  rw [String.data_append]
  intro h
  rcases List.mem_append.1 h with h1 | h1
  · revert h1
    decide
  · exact decStr_no_slash ts h1

theorem extract_seg_no_bsl (ts : Nat) :
    ('\\' : Char) ∉ ("extract_" ++ decStr ts).data := by
  rw [String.data_append]
  intro h
  rcases List.mem_append.1 h with h1 | h1
  · revert h1
    decide
  · exact decStr_no_bsl ts h1

theorem extract_seg_ne (ts : Nat) :
    ("extract_" ++ decStr ts) ≠ "" ∧ ("extract_" ++ decStr ts) ≠ "."
      ∧ ("extract_" ++ decStr ts) ≠ ".." := by
  have hd := List.length_pos.2 (decStr_data_ne_nil ts)
  have h8 : ("extract_" : String).data.length = 8 := by decide
  have he0 : ("" : String).data.length = 0 := by decide
  have he1 : ("." : String).data.length = 1 := by decide
  have he2 : (".." : String).data.length = 2 := by decide
  refine ⟨?_, ?_, ?_⟩ <;> intro he <;>
    (have hlen := congrArg (fun s : String => s.data.length) he
     simp only [String.data_append, List.length_append] at hlen)
  · rw [h8, he0] at hlen
    omega
  · rw [h8, he1] at hlen
    omega
  · rw [h8, he2] at hlen
    omega

theorem resolveAbs_route (E b : String)
    (hE : ('/' : Char) ∉ E.data) (hEne : E ≠ "" ∧ E ≠ "." ∧ E ≠ "..")
    (hb : ('/' : Char) ∉ b.data) (hbne : b ≠ "" ∧ b ≠ "." ∧ b ≠ "..") :
    resolveAbs [UPLOAD_DIR, E, b] = UPLOAD_DIR ++ "/" ++ E ++ "/" ++ b := by
  have hsegU : splitSegs UPLOAD_DIR = ["", "app", "uploads"] := by decide
  have hsegE : splitSegs E = [E] := by
    rw [splitSegs, splitSlash_no_slash E.data hE]
    simp [mk_data_eq]
  have hsegB : splitSegs b = [b] := by
    rw [splitSegs, splitSlash_no_slash b.data hb]
    simp [mk_data_eq]
  have hflat : ([UPLOAD_DIR, E, b].map splitSegs).flatten = ["", "app", "uploads", E, b] := by
    rw [List.map_cons, List.map_cons, List.map_cons, List.map_nil, hsegU, hsegE, hsegB]
    rfl
  have hnorm : normSegs ["", "app", "uploads", E, b] = ["app", "uploads", E, b] := by
    rw [normSegs]
    simp only [List.foldl_cons, List.foldl_nil]
    rw [show normStep [] "" = [] from by rw [normStep, if_pos (Or.inl rfl)]]
    rw [show normStep [] "app" = ["app"] from by
      rw [normStep, if_neg (by decide), if_neg (by decide)]
      rfl]
    rw [show normStep ["app"] "uploads" = ["app", "uploads"] from by
      rw [normStep, if_neg (by decide), if_neg (by decide)]
      rfl]
    rw [show normStep ["app", "uploads"] E = ["app", "uploads", E] from by
      rw [normStep, if_neg (fun hor => hor.elim hEne.1 hEne.2.1), if_neg hEne.2.2]
      rfl]
    rw [show normStep ["app", "uploads", E] b = ["app", "uploads", E, b] from by
      rw [normStep, if_neg (fun hor => hor.elim hbne.1 hbne.2.1), if_neg hbne.2.2]
      rfl]
  rw [resolveAbs, hflat, hnorm, renderAbs]
  apply data_inj
  have ha : ("/app" : String).data = ['/', 'a', 'p', 'p'] := by decide
  have hup : ("/uploads" : String).data = ['/', 'u', 'p', 'l', 'o', 'a', 'd', 's'] := by decide
  have hs : ("/" : String).data = ['/'] := by decide
  have happ : ("app" : String).data = ['a', 'p', 'p'] := by decide
  have huploads : ("uploads" : String).data = ['u', 'p', 'l', 'o', 'a', 'd', 's'] := by decide
  simp [joinSlash, String.data_append, UPLOAD_DIR, CWD, ha, hup, hs, happ, huploads]

theorem imagesGET_route (fs : FS) (E b : String)
    (hE : ('/' : Char) ∉ E.data) (hEne : E ≠ "" ∧ E ≠ "." ∧ E ≠ "..")
    (hb : ('/' : Char) ∉ b.data) (hbne : b ≠ "" ∧ b ≠ "." ∧ b ≠ "..") :
    imagesGET fs [E, b]
      = (match fs.readFile (UPLOAD_DIR ++ "/" ++ E ++ "/" ++ b) with
         | none => ServeOutcome.notFound
         | some bytes => ServeOutcome.ok bytes
             (contentTypeFor (strToLower (extname (UPLOAD_DIR ++ "/" ++ E ++ "/" ++ b))))) := by
  have hsw : strStartsWith (UPLOAD_DIR ++ "/" ++ E ++ "/" ++ b) UPLOAD_DIR = true := by
    rw [strStartsWith_iff]
    refine ⟨("/" : String).data ++ E.data ++ ("/" : String).data ++ b.data, ?_⟩
    simp [String.data_append]
  rw [imagesGET, if_neg (by simp)]
  simp only []
  rw [resolveAbs_route E b hE hEne hb hbne]
  rw [if_neg (by rw [hsw]; simp)]

theorem extractDirOf_eq (ts : Nat) :
    extractDirOf ts = UPLOAD_DIR ++ "/" ++ ("extract_" ++ decStr ts) := by
  apply data_inj
  have h1 : ("/extract_" : String).data = ("/" : String).data ++ ("extract_" : String).data := by
    decide
  simp [extractDirOf, String.data_append, h1]

theorem upload_data_head (R : String) :
    (UPLOAD_DIR ++ "/" ++ R).data = ("/app/uploads/" : String).data ++ R.data := by
  have h1 : ("/app" : String).data ++ (("/uploads" : String).data ++ ("/" : String).data)
      = ("/app/uploads/" : String).data := by decide
  simp [UPLOAD_DIR, CWD, String.data_append, ← h1]

theorem temp_data_head (ts : Nat) :
    (tempZipPathOf ts).data
      = ("/app/temp/upload_" : String).data ++ ((decStr ts).data ++ (".zip" : String).data) := by
  have h1 : ("/app" : String).data ++ (("/temp" : String).data ++ ("/upload_" : String).data)
      = ("/app/temp/upload_" : String).data := by decide
  simp [tempZipPathOf, TEMP_DIR, CWD, String.data_append, ← h1]

theorem upload_loc_not_temp (ts : Nat) (R : String) :
    ((UPLOAD_DIR ++ "/" ++ R == tempZipPathOf ts)
      || strStartsWith (UPLOAD_DIR ++ "/" ++ R) (tempZipPathOf ts ++ "/")) = false := by
  have hu : (UPLOAD_DIR ++ "/" ++ R).data.take 6 = ['/', 'a', 'p', 'p', '/', 'u'] := by
    rw [upload_data_head, List.take_append_of_le_length (by decide)]
    decide
  have htd : (tempZipPathOf ts).data.take 6 = ['/', 'a', 'p', 'p', '/', 't'] := by
    rw [temp_data_head, List.take_append_of_le_length (by decide)]
    decide
  have httd : (tempZipPathOf ts ++ "/").data.take 6 = ['/', 'a', 'p', 'p', '/', 't'] := by
    rw [String.data_append]
    rw [show (tempZipPathOf ts).data
        = ("/app/temp/upload_" : String).data ++ ((decStr ts).data ++ (".zip" : String).data)
      from temp_data_head ts]
    rw [List.append_assoc, List.take_append_of_le_length (by decide)]
    decide
  have hlen6 : 6 ≤ (tempZipPathOf ts ++ "/").data.length := by
    rw [String.data_append, temp_data_head]
    simp only [List.length_append]
    have h17 : ("/app/temp/upload_" : String).data.length = 17 := by decide
    have h17b : (['/', 'a', 'p', 'p', '/', 't', 'e', 'm', 'p', '/', 'u', 'p', 'l', 'o',
        'a', 'd', '_'] : List Char).length = 17 := by decide
    omega
  have c1 : (UPLOAD_DIR ++ "/" ++ R == tempZipPathOf ts) = false := by
    apply bool_eq_false
    intro htrue
    have he : UPLOAD_DIR ++ "/" ++ R = tempZipPathOf ts := by
      exact eq_of_beq htrue
    have h6 := congrArg (fun s : String => s.data.take 6) he
    simp only [] at h6
    rw [hu, htd] at h6
    exact absurd h6 (by decide)
  have c2 : strStartsWith (UPLOAD_DIR ++ "/" ++ R) (tempZipPathOf ts ++ "/") = false := by
    apply bool_eq_false
    intro htrue
    rw [strStartsWith_iff] at htrue
    have h6 := prefix_take htrue hlen6
    rw [hu, httd] at h6
    exact absurd h6 (by decide)
  rw [c1, c2]
  rfl

/-- C7 counterexample: the upload handler performs no percent-encoding when
it forms a public address, so for a container holding one image whose name
contains a space the returned address keeps the raw space and differs from
the address the spec's encoding contract (with percent-encoding) would
assign to the only extracted location; the claimed formation rule is false
at this input. -/
theorem C7_no_percent_encoding_counterexample :
    (uploadPOST "a.zip" (some [ZipEntry.mk "a b.jpg" [7]]) 0 ⟨[], []⟩).1
        = UploadOutcome.ok ["/api/images/extract_0/a b.jpg"] "/app/uploads/extract_0"
    ∧ (postRun [ZipEntry.mk "a b.jpg" [7]] 0 ⟨[], []⟩).written
        = ["/app/uploads/extract_0/a b.jpg"]
    ∧ specAddressOf "/app/uploads/extract_0/a b.jpg" = "/api/images/extract_0/a%20b.jpg"
    ∧ "/api/images/extract_0/a b.jpg" ≠ specAddressOf "/app/uploads/extract_0/a b.jpg" := by
  decide

/-- C7 amended: every address returned by a successful upload is formed from
the file's location relative to the storage root by replacing backslashes
with forward slashes and prefixing the routing segment, with no
percent-encoding; and when the archive's entry names contain no backslash,
every returned address resolves through the serving route to the very bytes
written for that location during extraction, with the extension-derived
content type. -/
theorem C7_address_roundtrip_amended (fileName : String) (entries : List ZipEntry)
    (ts : Nat) (fs0 : FS)
    (hzip : strEndsWith fileName ".zip" = true)
    (hlow : 1 ≤ countQ [] entries) (hhigh : countQ [] entries ≤ 100)
    (hbsl : ∀ e ∈ entries, ('\\' : Char) ∉ e.fileName.data) :
    ∃ (urls : List String) (fs1 : FS),
      uploadPOST fileName (some entries) ts fs0
        = (UploadOutcome.ok urls (extractDirOf ts), fs1)
      ∧ ∀ u ∈ urls, ∃ (loc : String) (bytes : List Nat),
          loc ∈ (postRun entries ts fs0).written
          ∧ u = "/api/images/" ++ replaceBsl (relativeTo UPLOAD_DIR loc)
          ∧ bytes ∈ entries.map ZipEntry.content
          ∧ fs1.readFile loc = some bytes
          ∧ resolvePublic fs1 u
              = ServeOutcome.ok bytes (contentTypeFor (strToLower (extname loc))) := by
  refine ⟨(List.insertionSort strLe (postRun entries ts fs0).written).map toUrl,
    (postRun entries ts fs0).fs.removeAll (tempZipPathOf ts),
    uploadPOST_ok fileName entries ts fs0 hzip hlow hhigh, ?_⟩
  intro u hu
  obtain ⟨loc, hlocmem, rfl⟩ := List.mem_map.1 hu
  have hperm := List.perm_insertionSort strLe (postRun entries ts fs0).written
  have hlocw : loc ∈ (postRun entries ts fs0).written := hperm.mem_iff.1 hlocmem
  obtain ⟨b, hloce, hblen, hbchars⟩ := runFrom_shape (extractDirOf ts) ['\\']
    (by decide) (by decide) (by decide) entries ⟨[], [], stagedFS fs0 ts⟩
    (by
      intro e he c hc hbad
      rw [List.mem_singleton] at hbad
      exact hbsl e he (hbad ▸ hc))
    (by intro p hp; simp at hp)
    loc hlocw
  subst hloce
  have hbslash : ('/' : Char) ∉ b.data := fun hm => (hbchars '/' hm).1 rfl
  have hbbsl : ('\\' : Char) ∉ b.data := fun hm => (hbchars '\\' hm).2 (List.mem_singleton.2 rfl)
  have hbne := ne_special_of_four hblen
  have hEslash := extract_seg_no_slash ts
  have hEne := extract_seg_ne ts
  obtain ⟨bytes, hread, hbytes⟩ := postRun_written_readable entries ts fs0 _ hlocw
  have hloc2 : extractDirOf ts ++ "/" ++ b
      = UPLOAD_DIR ++ "/" ++ ("extract_" ++ decStr ts) ++ "/" ++ b := by
    rw [extractDirOf_eq]
  have hloc3 : UPLOAD_DIR ++ "/" ++ ("extract_" ++ decStr ts) ++ "/" ++ b
      = UPLOAD_DIR ++ "/" ++ (("extract_" ++ decStr ts) ++ ("/" ++ b)) := by
    rw [str_append_assoc (UPLOAD_DIR ++ "/" ++ ("extract_" ++ decStr ts)) "/" b,
      str_append_assoc (UPLOAD_DIR ++ "/") ("extract_" ++ decStr ts) ("/" ++ b)]
  have hreadfs1 : ((postRun entries ts fs0).fs.removeAll
      (tempZipPathOf ts)).readFile (extractDirOf ts ++ "/" ++ b) = some bytes := by
    rw [removeAll_readFile_of_not _ _ _ ?hnotun]
    · exact hread
    case hnotun =>
      rw [hloc2, hloc3]
      exact upload_loc_not_temp ts (("extract_" ++ decStr ts) ++ ("/" ++ b))
  refine ⟨extractDirOf ts ++ "/" ++ b, bytes, hlocw, ?_, hbytes, hreadfs1, ?_⟩
  · rw [toUrl_shaped ts b, hloc2, hloc3, relativeTo_append,
      replaceBsl_append ("extract_" ++ decStr ts) ("/" ++ b),
      replaceBsl_append "/" b,
      replaceBsl_of_no_bsl (extract_seg_no_bsl ts),
      replaceBsl_of_no_bsl (s := "/") (by decide)]
  · rw [toUrl_shaped ts b, replaceBsl_of_no_bsl hbbsl, resolvePublic,
      splitSegs_route ("extract_" ++ decStr ts) b hEslash hbslash]
    rw [show (["", "api", "images", "extract_" ++ decStr ts, b] : List String).drop 3
      = ["extract_" ++ decStr ts, b] from rfl]
    rw [imagesGET_route _ _ _ hEslash hEne hbslash hbne]
    rw [← hloc2, hreadfs1]

theorem C7_address_roundtrip_amended_witness :
    (strEndsWith "a.zip" ".zip" = true
      ∧ 1 ≤ countQ [] [ZipEntry.mk "a.jpg" [9]]
      ∧ countQ [] [ZipEntry.mk "a.jpg" [9]] ≤ 100
      ∧ ∀ e ∈ [ZipEntry.mk "a.jpg" [9]], ('\\' : Char) ∉ e.fileName.data)
    ∧ ∃ (urls : List String) (fs1 : FS),
      uploadPOST "a.zip" (some [ZipEntry.mk "a.jpg" [9]]) 0 ⟨[], []⟩
        = (UploadOutcome.ok urls (extractDirOf 0), fs1)
      ∧ ∀ u ∈ urls, ∃ (loc : String) (bytes : List Nat),
          loc ∈ (postRun [ZipEntry.mk "a.jpg" [9]] 0 ⟨[], []⟩).written
          ∧ u = "/api/images/" ++ replaceBsl (relativeTo UPLOAD_DIR loc)
          ∧ bytes ∈ [ZipEntry.mk "a.jpg" [9]].map ZipEntry.content
          ∧ fs1.readFile loc = some bytes
          ∧ resolvePublic fs1 u
              = ServeOutcome.ok bytes (contentTypeFor (strToLower (extname loc))) :=
  ⟨⟨by decide, by decide, by decide, by decide⟩,
    C7_address_roundtrip_amended "a.zip" [ZipEntry.mk "a.jpg" [9]] 0 ⟨[], []⟩
      (by decide) (by decide) (by decide) (by decide)⟩
